import Mathlib

/-!
Verification development for the hybrid AES/RSA envelope repository
(Node.js `aes-poc` service and Flutter `sample_aes_flutter` client).

Shallow embedding conventions:
* Text (JavaScript / Dart strings) is modelled as `List Nat` of Unicode
  code points; byte buffers (`Buffer` / `Uint8List`) as `List Nat` with
  every element `< 256`.
* Fallible operations return `Except Err _` (a thrown exception becomes
  `.error`), or `Option` for platform decoders that the source wraps in
  try/catch.
* Platform primitives that are not part of the repository (the AES block
  permutation, RSA-OAEP, JSON parsing) enter the model as parameters with
  the laws the specification states for them; each such definition carries
  a `Modelled from the spec:` comment.  Everything else is translated
  directly from the source files.
-/

namespace AesRepo

abbrev Text := List Nat
abbrev Bytes := List Nat

/-- Every element of the list is a byte value. -/
def IsBytes (bs : Bytes) : Prop := ∀ b ∈ bs, b < 256

instance : DecidablePred IsBytes := fun bs =>
  decidable_of_iff (∀ b ∈ bs, b < 256) Iff.rfl

/-- Code points representable in a JavaScript / Dart string. -/
def IsText (t : Text) : Prop := ∀ c ∈ t, c < 1114112

/-! ### Generic text utilities (whitespace, trim, substring search) -/

/-- Whitespace as matched by the `\s` regex class (space, tab, LF, CR, FF, VT). -/
def isWsChar (c : Nat) : Bool := c = 32 || c = 9 || c = 10 || c = 13 || c = 12 || c = 11

/-- Model of `String.replaceAll(RegExp(r'\s+'), '')` / `.replace(/\s+/g, '')`. -/
def stripWs (t : Text) : Text := t.filter (fun c => !isWsChar c)

/-- Model of `String.trim()`: strip leading and trailing whitespace. -/
def trimText (t : Text) : Text :=
  ((t.dropWhile isWsChar).reverse.dropWhile isWsChar).reverse

/-- Whether `needle` occurs as a contiguous substring of `haystack`
(model of `String.includes` / `String.contains`). -/
def containsSub (needle haystack : Text) : Bool :=
  (List.range (haystack.length + 1)).any
    (fun i => needle.isPrefixOf (haystack.drop i))

/-- Index of the first occurrence of `needle` in `haystack`, if any
(model of `String.indexOf`). -/
def findSub (needle haystack : Text) : Option Nat :=
  (List.range (haystack.length + 1)).find?
    (fun i => needle.isPrefixOf (haystack.drop i))

/-! ### The base64 alphabet and the 65-symbol obfuscation ring

Source: `keyDecrypt.js` / `key_decrypt.dart` both fix
`base64Chars = 'ABCDEFGHIJKLMNOPQRSTUVWXYZabcdefghijklmnopqrstuvwxyz0123456789+/='`
(the 64 base64 symbols plus the padding character, 65 symbols in all). -/

def base64Chars : Text :=
  (List.range 26).map (65 + ·) ++ (List.range 26).map (97 + ·) ++
  (List.range 10).map (48 + ·) ++ [43, 47, 61]

/-- Character at a ring index (model of `base64Chars[i]`, defined for `i < 65`). -/
def ringChar (i : Nat) : Nat := base64Chars.getD i 0

/-- Position of a character in the 65-symbol ring, arithmetical form of
`base64Chars.indexOf(char)` for the fixed alphabet string above. -/
def ringIdx (c : Nat) : Option Nat :=
  if 65 ≤ c ∧ c ≤ 90 then some (c - 65)
  else if 97 ≤ c ∧ c ≤ 122 then some (c - 71)
  else if 48 ≤ c ∧ c ≤ 57 then some (c - 48 + 52)
  else if c = 43 then some 62
  else if c = 47 then some 63
  else if c = 61 then some 64
  else none

/-- Six-bit value of a proper base64 symbol (excludes the `=` padding). -/
def sixBit (c : Nat) : Option Nat :=
  match ringIdx c with
  | some i => if i < 64 then some i else none
  | none => none

/-- Source `decryptBase64ContentWithShift` (both runtimes): cyclically shift
every ring character back by `shift` positions,
`(charIndex - shift + 65) % 65`; characters outside the ring are kept.
All call sites use `1 ≤ shift ≤ 20`. -/
def decryptB64WithShift (shift : Nat) (t : Text) : Text :=
  t.map fun c =>
    match ringIdx c with
    | some i => ringChar ((i + 65 - shift) % 65)
    | none => c

/-- Modelled from the spec: the obfuscation direction (spec §3
"ObfuscatedKeyMaterial", §6) rotates each body character forward by the
shift on the 65-symbol ring.  It is the inverse of the source's
`decryptBase64ContentWithShift` and is not itself present in the sources. -/
def rotRing (shift : Nat) (t : Text) : Text :=
  t.map fun c =>
    match ringIdx c with
    | some i => ringChar ((i + shift) % 65)
    | none => c

/-- Source `decryptBytesWithShift` (both runtimes):
`(byte - shift + 256) % 256` on every byte (JavaScript arithmetic; the
Lean form `(b + 256 - shift) % 256` agrees for the used shifts `≤ 20`). -/
def decryptBytesWithShift (shift : Nat) (bs : Bytes) : Bytes :=
  bs.map fun b => (b + 256 - shift) % 256

/-- Source `modifiedCaesarDecrypt` character step (identical in
`keyDecrypt.js` and `key_decrypt.dart`): shift letters back by 3 within
their case class, digits back by 3 within `0-9`, keep the rest. -/
def caesarChar (c : Nat) : Nat :=
  if 97 ≤ c ∧ c ≤ 122 then (c - 97 + 26 - 3) % 26 + 97
  else if 65 ≤ c ∧ c ≤ 90 then (c - 65 + 26 - 3) % 26 + 65
  else if 48 ≤ c ∧ c ≤ 57 then (c - 48 + 10 - 3) % 10 + 48
  else c

/-- Error conditions; each constructor corresponds to one family of thrown
exceptions in the sources. -/
inductive Err where
  | required      -- missing / empty input ('... is required')
  | noContent     -- 'No key content found'
  | decryptFailed -- 'Failed to decrypt key content - all decryption methods failed'
  | importFailed  -- key import failure
  | cipherError   -- AES layer failure (bad IV/key/ciphertext/padding)
  | oaepError     -- RSA-OAEP layer failure
  | utf8Error     -- UTF-8 decode failure
  | uriError      -- decodeURIComponent / Uri.decodeComponent failure
  deriving DecidableEq, Repr

/-- Source `modifiedCaesarDecrypt` (identical in both runtimes): rejects the
empty key, otherwise maps `caesarChar` over the characters. -/
def modifiedCaesarDecrypt (t : Text) : Except Err Text :=
  if t = [] then .error .required else .ok (t.map caesarChar)

/-! ### Base64 codecs

`b64encode` is canonical padded base64 (`Buffer.toString('base64')` /
`base64Encode`).  `jsB64decode` models Node's forgiving `Buffer.from(s,
'base64')`: symbols outside the 64-character alphabet (including `=`) are
skipped and the surviving six-bit groups are packed, dropping trailing
bits that do not fill a byte.  `dartB64decode` models Dart's strict
`base64Decode`: length must be a multiple of four, `=` may appear only as
final padding, any other violation throws (`none`). -/

def b64encode : Bytes → Text
  | [] => []
  | [a] => [ringChar (a / 4), ringChar (a % 4 * 16), 61, 61]
  | [a, b] => [ringChar (a / 4), ringChar (a % 4 * 16 + b / 16), ringChar (b % 16 * 4), 61]
  | a :: b :: c :: rest =>
      ringChar (a / 4) :: ringChar (a % 4 * 16 + b / 16) ::
      ringChar (b % 16 * 4 + c / 64) :: ringChar (c % 64) :: b64encode rest

/-- Pack a stream of six-bit values into bytes, dropping trailing bits. -/
def packSextets : List Nat → Bytes
  | [] => []
  | [_] => []
  | [a, b] => [a * 4 + b / 16]
  | [a, b, c] => [a * 4 + b / 16, b % 16 * 16 + c / 4]
  | a :: b :: c :: d :: rest =>
      (a * 4 + b / 16) :: (b % 16 * 16 + c / 4) :: (c % 4 * 64 + d) :: packSextets rest

def jsB64decode (t : Text) : Bytes := packSextets (t.filterMap sixBit)

/-- Validity of a text as strict base64: length a multiple of four, every
character before the final two a proper symbol, and a final pair that is
two symbols, one symbol plus `=`, or `==`. -/
def dartB64valid (t : Text) : Bool :=
  t.length % 4 = 0 &&
  (t = [] ||
   ((t.dropLast.dropLast).all (fun c => (sixBit c).isSome) &&
    (match t.drop (t.length - 2) with
     | [c1, c2] =>
       ((sixBit c1).isSome && (sixBit c2).isSome) ||
       ((sixBit c1).isSome && c2 = 61) ||
       (c1 = 61 && c2 = 61)
     | _ => false)))

def dartB64decode (t : Text) : Option Bytes :=
  if dartB64valid t then some (packSextets (t.filterMap sixBit)) else none

/-! ### UTF-8 and percent-encoding

The platform primitives `TextEncoder`/`utf8.encode`, `TextDecoder`/
`utf8.decode`, `encodeURIComponent` and `decodeURIComponent` /
`Uri.encodeComponent` / `Uri.decodeComponent` are modelled concretely by
their standard definitions on code points. -/

/-- UTF-8 bytes of one code point. -/
def charUtf8 (c : Nat) : Bytes :=
  if c < 128 then [c]
  else if c < 2048 then [192 + c / 64, 128 + c % 64]
  else if c < 65536 then [224 + c / 4096, 128 + c / 64 % 64, 128 + c % 64]
  else [240 + c / 262144, 128 + c / 4096 % 64, 128 + c / 64 % 64, 128 + c % 64]

/-- UTF-8 encoding of a text. -/
def utf8Bytes (t : Text) : Bytes := t.flatMap charUtf8

/-- Continuation-byte test. -/
def utf8Cont (b : Nat) : Bool := 128 ≤ b && b < 192

/-- Decode one UTF-8 code point from the front of a byte stream
(continuation-byte validation; sufficient for every canonical encoding,
which is all the pipeline produces). -/
def utf8DecodeOne : Bytes → Option (Nat × Bytes)
  | [] => none
  | b1 :: rest =>
    if b1 < 128 then some (b1, rest)
    else if b1 < 192 then none
    else if b1 < 224 then
      match rest with
      | b2 :: rest2 =>
        if utf8Cont b2 then some ((b1 - 192) * 64 + (b2 - 128), rest2) else none
      | [] => none
    else if b1 < 240 then
      match rest with
      | b2 :: b3 :: rest3 =>
        if utf8Cont b2 && utf8Cont b3 then
          some ((b1 - 224) * 4096 + (b2 - 128) * 64 + (b3 - 128), rest3)
        else none
      | _ => none
    else if b1 < 248 then
      match rest with
      | b2 :: b3 :: b4 :: rest4 =>
        if utf8Cont b2 && utf8Cont b3 && utf8Cont b4 then
          some ((b1 - 240) * 262144 + (b2 - 128) * 4096 + (b3 - 128) * 64 + (b4 - 128),
            rest4)
        else none
      | _ => none
    else none

/-- Full UTF-8 decoding, with one unit of fuel per decoded code point
(the byte length always suffices). -/
def utf8DecodeAux : Nat → Bytes → Option Text
  | 0, bs => if bs = [] then some [] else none
  | fuel + 1, bs =>
    match bs with
    | [] => some []
    | _ :: _ =>
      match utf8DecodeOne bs with
      | some (c, rest) => (utf8DecodeAux fuel rest).map (c :: ·)
      | none => none

def utf8Decode (bs : Bytes) : Option Text := utf8DecodeAux bs.length bs

/-- Characters `encodeURIComponent` leaves unescaped:
`A-Z a-z 0-9 - _ . ! ~ * ' ( )`. -/
def uriUnreserved (c : Nat) : Bool :=
  (48 ≤ c && c ≤ 57) || (65 ≤ c && c ≤ 90) || (97 ≤ c && c ≤ 122) ||
  c = 45 || c = 95 || c = 46 || c = 33 || c = 126 || c = 42 || c = 39 || c = 40 || c = 41

/-- Uppercase hexadecimal digit of a value `< 16`. -/
def hexDigit (n : Nat) : Nat := if n < 10 then 48 + n else 55 + n

/-- Value of a hexadecimal digit character (either case). -/
def hexVal (c : Nat) : Option Nat :=
  if 48 ≤ c ∧ c ≤ 57 then some (c - 48)
  else if 65 ≤ c ∧ c ≤ 70 then some (c - 55)
  else if 97 ≤ c ∧ c ≤ 102 then some (c - 87)
  else none

/-- Model of `encodeURIComponent` / `Uri.encodeComponent`: unreserved code
points pass through, every other code point becomes `%XX` triples of its
UTF-8 bytes. -/
def uriEncode (t : Text) : Text :=
  t.flatMap fun c =>
    if uriUnreserved c then [c]
    else (charUtf8 c).flatMap fun b => [37, hexDigit (b / 16), hexDigit (b % 16)]

/-- Percent-decoding to a byte stream: `%XX` becomes the byte `XX`, any
other character contributes its own UTF-8 bytes; a malformed escape fails
(`URIError`). -/
def pctDecodeBytes : Text → Option Bytes
  | [] => some []
  | 37 :: rest =>
    match rest with
    | h1 :: h2 :: rest2 => do
      let v1 ← hexVal h1
      let v2 ← hexVal h2
      let bs ← pctDecodeBytes rest2
      pure ((v1 * 16 + v2) :: bs)
    | _ => none
  | c :: rest => (pctDecodeBytes rest).map (charUtf8 c ++ ·)

/-- Model of `decodeURIComponent` / `Uri.decodeComponent`. -/
def uriDecode (t : Text) : Option Text := pctDecodeBytes t >>= utf8Decode

/-! ### Key material resolution: `keyDecrypt` (both runtimes)

Marker constants (code points of the literal strings in the sources). -/

def decoyPubBegin : Text := [45, 45, 45, 45, 45, 73, 76, 78, 80, 85, 32, 87, 98, 73, 83, 80, 74, 32, 82, 76, 102, 45, 45, 45, 45, 45]
def decoyPubEnd : Text := [45, 45, 45, 45, 45, 76, 85, 75, 32, 87, 98, 73, 83, 80, 74, 32, 82, 76, 102, 45, 45, 45, 45, 45]
def decoyPrivBegin : Text := [45, 45, 45, 45, 45, 73, 76, 78, 80, 85, 32, 87, 89, 80, 99, 72, 97, 76, 32, 82, 76, 102, 45, 45, 45, 45, 45]
def decoyPrivEnd : Text := [45, 45, 45, 45, 45, 76, 85, 75, 32, 87, 89, 80, 99, 72, 97, 76, 32, 82, 76, 102, 45, 45, 45, 45, 45]
def strBegin : Text := [45, 45, 45, 45, 45, 66, 69, 71, 73, 78]
def strEnd : Text := [45, 45, 45, 45, 45, 69, 78, 68]
def strPublicKeyWord : Text := [80, 85, 66, 76, 73, 67, 32, 75, 69, 89]
def strPrivateKeyWord : Text := [80, 82, 73, 86, 65, 84, 69, 32, 75, 69, 89]
def pemPubBegin : Text := [45, 45, 45, 45, 45, 66, 69, 71, 73, 78, 32, 80, 85, 66, 76, 73, 67, 32, 75, 69, 89, 45, 45, 45, 45, 45]
def pemPubEnd : Text := [45, 45, 45, 45, 45, 69, 78, 68, 32, 80, 85, 66, 76, 73, 67, 32, 75, 69, 89, 45, 45, 45, 45, 45]
def pemPrivBegin : Text := [45, 45, 45, 45, 45, 66, 69, 71, 73, 78, 32, 80, 82, 73, 86, 65, 84, 69, 32, 75, 69, 89, 45, 45, 45, 45, 45]
def pemPrivEnd : Text := [45, 45, 45, 45, 45, 69, 78, 68, 32, 80, 82, 73, 86, 65, 84, 69, 32, 75, 69, 89, 45, 45, 45, 45, 45]
def strDashes5 : Text := [45, 45, 45, 45, 45]

/-- Content between the first occurrence of `b` and the first following
occurrence of `e`, trimmed — the value of `(.*?)` in the decoy-marker
regexes of `keyDecrypt`. -/
def betweenMarkers (b e key : Text) : Option Text := do
  let i ← findSub b key
  let afterB := key.drop (i + b.length)
  let j ← findSub e afterB
  pure (trimText (afterB.take j))

/-- Content matched by `/-----BEGIN[^-]+-----\s*(.*?)\s*-----END[^-]+-----/s`:
after the first `-----BEGIN` a non-empty dash-free stretch up to the next
`-----`, then the body up to the first subsequent `-----END`, trimmed
(the `\s*` borders are absorbed by the trim). -/
def betweenPem (key : Text) : Option Text := do
  let i ← findSub strBegin key
  let afterB := key.drop (i + strBegin.length)
  let g ← findSub strDashes5 afterB
  if g = 0 then none
  else if (afterB.take g).all (· ≠ 45) then
    let body := afterB.drop (g + strDashes5.length)
    let j ← findSub strEnd body
    pure (trimText (body.take j))
  else none

/-- Marker detection and body extraction of `keyDecrypt` (identical control
flow in both runtimes): result is `(isPublicKey, isPrivateKey,
base64Content)`, with `[]` standing for the empty content. -/
def extractKey (key : Text) : Bool × Bool × Text :=
  if containsSub decoyPubBegin key then
    (true, false, (betweenMarkers decoyPubBegin decoyPubEnd key).getD [])
  else if containsSub decoyPrivBegin key then
    (false, true, (betweenMarkers decoyPrivBegin decoyPrivEnd key).getD [])
  else if containsSub strBegin key && containsSub strEnd key then
    match betweenPem key with
    | some c => (containsSub strPublicKeyWord key, containsSub strPrivateKeyWord key, c)
    | none => (false, false, [])
  else (false, false, trimText key)

/-- Acceptance oracle of the JavaScript text loop: forgiving base64 decode
of the shifted text, first byte must exist and equal `0x30`. -/
def jsTextAccept (clean : Text) (shift : Nat) : Bool :=
  (jsB64decode (decryptB64WithShift shift clean)).head? = some 48

/-- Acceptance oracle of the Dart text loop: the shifted text (whitespace
removed) must strictly decode and its first byte equal `0x30`. -/
def dartTextAccept (clean : Text) (shift : Nat) : Bool :=
  match dartB64decode (stripWs (decryptB64WithShift shift clean)) with
  | some bs => bs.head? = some 48
  | none => false

/-- Byte-level acceptance oracle (both runtimes): first byte of the
byte-shifted buffer equals `0x30`. -/
def byteAccept (bs : Bytes) (shift : Nat) : Bool :=
  (decryptBytesWithShift shift bs).head? = some 48

/-- First shift in the list whose text decryption passes `accept`,
returning the decrypted text (the loop bodies of approach 1). -/
def firstTextHit (accept : Text → Nat → Bool) (clean : Text) :
    List Nat → Option Text
  | [] => none
  | s :: ss =>
    if accept clean s then some (decryptB64WithShift s clean)
    else firstTextHit accept clean ss

/-- First shift whose byte decryption passes the byte oracle, returning
the decrypted bytes (the loop body of approach 2). -/
def firstByteHit (bs : Bytes) : List Nat → Option Bytes
  | [] => none
  | s :: ss =>
    if byteAccept bs s then some (decryptBytesWithShift s bs)
    else firstByteHit bs ss

/-- Shifts `1..20` in order. -/
def shiftRange : List Nat := List.range' 1 20

/-- Dart tries shift 7 first, then `1..20` skipping 7. -/
def dartShiftOrder : List Nat := 7 :: shiftRange.filter (· ≠ 7)

/-- Chunk a text into 64-character lines, each (including the last)
followed by a newline — the `formattedKey` loops of both runtimes.
Structured with an explicit fuel argument (one unit per loop iteration,
the text length always suffices) so the definition stays evaluable by the
kernel. -/
def chunk64Aux : Nat → Text → Text
  | 0, _ => []
  | _, [] => []
  | fuel + 1, t => t.take 64 ++ [10] ++ chunk64Aux fuel (t.drop 64)

def chunk64 (t : Text) : Text := chunk64Aux t.length t

/-- Final PEM reassembly of `keyDecrypt` (identical in both runtimes). -/
def wrapKey (isPub isPriv : Bool) (decryptedBase64 : Text) : Text :=
  let formatted := chunk64 (stripWs decryptedBase64)
  if isPub then pemPubBegin ++ [10] ++ formatted ++ pemPubEnd
  else if isPriv then pemPrivBegin ++ [10] ++ formatted ++ pemPrivEnd
  else pemPubBegin ++ [10] ++ formatted ++ pemPubEnd

/-- Source `keyDecrypt` of `aes-poc/utils` (`part_002` variant used by the
encryption/decryption services): shift search over the text ring, then
over raw bytes, then an unconditional fall back to the fixed shift-3 text
decryption (`decryptBase64Content`), and PEM reassembly. -/
def keyDecryptJs (key : Text) : Except Err Text :=
  if key = [] then .error .required
  else
    let (isPub, isPriv, base64Content) := extractKey key
    if base64Content = [] then .error .noContent
    else
      let clean := stripWs base64Content
      let decryptedBase64 :=
        match firstTextHit jsTextAccept clean shiftRange with
        | some t => t
        | none =>
          match firstByteHit (jsB64decode clean) shiftRange with
          | some bs => b64encode bs
          | none => decryptB64WithShift 3 clean
      if decryptedBase64 = [] then .error .decryptFailed
      else .ok (wrapKey isPub isPriv decryptedBase64)

/-- Source `keyDecrypt` of `key_decrypt.dart`: same extraction, text shifts
tried in the order 7, 1..20 (without 7) with the strict decoder, then the
byte-level search (skipped entirely if the body is not strict base64), and
an error when nothing was found. -/
def keyDecryptDart (key : Text) : Except Err Text :=
  if key = [] then .error .required
  else
    let (isPub, isPriv, base64Content) := extractKey key
    if base64Content = [] then .error .noContent
    else
      let clean := stripWs base64Content
      let found :=
        match firstTextHit dartTextAccept clean dartShiftOrder with
        | some t => some t
        | none =>
          match dartB64decode clean with
          | some ebs =>
            match firstByteHit ebs shiftRange with
            | some bs => some (b64encode bs)
            | none => none
          | none => none
      match found with
      | none => .error .decryptFailed
      | some decryptedBase64 =>
        if decryptedBase64 = [] then .error .decryptFailed
        else .ok (wrapKey isPub isPriv decryptedBase64)

/-! ### Symmetric key import -/

/-- Model of `Buffer.alloc(32)` followed by `keyBuffer.copy(paddedKey)` /
`Uint8List(32)` with `setRange`: 32 bytes, source bytes then zeros. -/
def alloc32copy (bs : Bytes) : Bytes :=
  (List.range 32).map fun i => bs.getD i 0

/-- Source `importAesKey` of `aes-poc/utils/cryptoUtils.js`: the raw key
string is ALWAYS taken as UTF-8 bytes (`Buffer.from(rawAesKey, 'utf-8')`),
then zero-padded / truncated to exactly 32 bytes. -/
def importAesKeyJs (rawAesKey : Text) : Except Err Bytes :=
  if rawAesKey = [] then .error .required
  else
    let keyBuffer := utf8Bytes rawAesKey
    if keyBuffer.length < 32 then .ok (alloc32copy keyBuffer)
    else if 32 < keyBuffer.length then .ok (keyBuffer.take 32)
    else .ok keyBuffer

/-- Byte selection of the Dart `importAesKey` (`crypto_utils.dart`): try
strict base64 first and keep the decode when its length lies in `[16, 64]`,
otherwise fall back to the UTF-8 bytes of the text. -/
def dartAesKeyBytes (rawAesKey : Text) : Bytes :=
  match dartB64decode rawAesKey with
  | some ks => if 16 ≤ ks.length ∧ ks.length ≤ 64 then ks else utf8Bytes rawAesKey
  | none => utf8Bytes rawAesKey

/-- Source `importAesKey` of `crypto_utils.dart`. -/
def importAesKeyDart (rawAesKey : Text) : Except Err Bytes :=
  if rawAesKey = [] then .error .required
  else
    let keyBytes := dartAesKeyBytes rawAesKey
    if keyBytes.length < 32 then .ok (alloc32copy keyBytes)
    else if 32 < keyBytes.length then .ok (keyBytes.take 32)
    else .ok keyBytes

/-! ### ASN.1/DER key decoding (`rsa_key_parser.dart`)

Errors are split into the structural decode errors the parser throws
explicitly and the range errors raised by the Dart runtime for
out-of-range list indexing / `sublist`. -/

inductive DerErr where
  | structuralTag   -- 'Invalid ASN.1 structure: expected ... at offset ...'
  | structuralLen   -- every explicit throw inside `_readLength`
  | structuralOther -- remaining explicit throws (empty content, bounds checks)
  | base64          -- FormatException from `base64Decode`
  | rangeIndex      -- RangeError: list index out of range
  | rangeSublist    -- RangeError from `sublist(start, end)`
  deriving DecidableEq, Repr

/-- Whether an error is one of the parser's own structural decode errors
(as opposed to a runtime range error). -/
def DerErr.isStructural : DerErr → Bool
  | .structuralTag | .structuralLen | .structuralOther | .base64 => true
  | .rangeIndex | .rangeSublist => false

structure DerLen where
  value : Nat
  lengthBytes : Nat
  deriving DecidableEq, Repr

/-- Source `_readLength`: short form below `0x80`; long form with a
length-of-length in `[1,4]`, enough remaining bytes, and a value bounded
by the buffer size.  Every failure is an explicitly thrown exception. -/
def readLength (bytes : Bytes) (offset : Nat) : Except DerErr DerLen :=
  if bytes.length ≤ offset then .error .structuralLen
  else
    let firstByte := bytes.getD offset 0
    if firstByte &&& 128 = 0 then .ok ⟨firstByte, 1⟩
    else
      let lengthOfLength := firstByte &&& 127
      if 4 < lengthOfLength ∨ lengthOfLength = 0 then .error .structuralLen
      else if bytes.length < offset + 1 + lengthOfLength then .error .structuralLen
      else
        let len := (List.range lengthOfLength).foldl
          (fun acc i => acc * 256 + bytes.getD (offset + 1 + i) 0) 0
        if bytes.length < len then .error .structuralLen
        else .ok ⟨len, 1 + lengthOfLength⟩

/-- Model of Dart `bytes.sublist(s, e)`: returns the slice, or a
RangeError when the bounds do not fit the list. -/
def dartSublist (bytes : Bytes) (s e : Nat) : Except DerErr Bytes :=
  if s ≤ e ∧ e ≤ bytes.length then .ok ((bytes.drop s).take (e - s))
  else .error .rangeSublist

/-- Source `_decodeBigInt`: big-endian fold `(result << 8) | byte`. -/
def decodeBigInt (bytes : Bytes) : Nat :=
  bytes.foldl (fun result b => (result <<< 8) ||| b) 0

/-- Source `_bytesToBigInteger`: reads `bytes[0]` unconditionally (a
RangeError on the empty list), prepends a zero byte when the high bit of
the leading byte is set, then `_decodeBigInt`. -/
def bytesToBigInteger (bytes : Bytes) : Except DerErr Nat :=
  match bytes with
  | [] => .error .rangeIndex
  | b0 :: _ =>
    if b0 &&& 128 ≠ 0 then .ok (decodeBigInt (0 :: bytes))
    else .ok (decodeBigInt bytes)

/-- Tag check pattern of the parsers:
`offset >= keyBytes.length || keyBytes[offset] != tag`. -/
def tagMismatch (bytes : Bytes) (offset tag : Nat) : Bool :=
  bytes.length ≤ offset || bytes.getD offset 0 ≠ tag

structure RsaPub where
  n : Nat
  e : Nat
  deriving DecidableEq, Repr

structure RsaPriv where
  n : Nat
  d : Nat
  p : Nat
  q : Nat
  deriving DecidableEq, Repr

/-- DER walk of `parseRSAPublicKeyFromPEM` (source lines 41-136), starting
from the decoded key bytes.  Every guard of the source is reproduced at
the same position. -/
def parsePublicKeyDer (keyBytes : Bytes) : Except DerErr RsaPub := do
  if keyBytes = [] then throw .structuralOther
  if tagMismatch keyBytes 0 48 then throw .structuralTag
  let offset := 1
  let seqLength ← readLength keyBytes offset
  let offset := offset + seqLength.lengthBytes
  if keyBytes.length < offset + seqLength.value then throw .structuralOther
  if tagMismatch keyBytes offset 48 then throw .structuralTag
  let offset := offset + 1
  let algSeqLength ← readLength keyBytes offset
  let offset := offset + algSeqLength.lengthBytes + algSeqLength.value
  if tagMismatch keyBytes offset 3 then throw .structuralTag
  let offset := offset + 1
  let bitStringLength ← readLength keyBytes offset
  let offset := offset + bitStringLength.lengthBytes
  if keyBytes.length < offset + bitStringLength.value then throw .structuralOther
  let offset := offset + 1
  let bitStringEnd := offset + bitStringLength.value - 1
  if tagMismatch keyBytes offset 48 then throw .structuralTag
  let offset := offset + 1
  let rsaSeqLength ← readLength keyBytes offset
  let offset := offset + rsaSeqLength.lengthBytes
  if bitStringEnd < offset + rsaSeqLength.value then throw .structuralOther
  if tagMismatch keyBytes offset 2 then throw .structuralTag
  let offset := offset + 1
  let modulusLength ← readLength keyBytes offset
  let offset := offset + modulusLength.lengthBytes
  if keyBytes.length < offset + modulusLength.value then throw .structuralOther
  let modulusBytes ← dartSublist keyBytes offset (offset + modulusLength.value)
  let offset := offset + modulusLength.value
  let modulus ← bytesToBigInteger modulusBytes
  if tagMismatch keyBytes offset 2 then throw .structuralTag
  let offset := offset + 1
  let exponentLength ← readLength keyBytes offset
  let offset := offset + exponentLength.lengthBytes
  if keyBytes.length < offset + exponentLength.value then throw .structuralOther
  let exponentBytes ← dartSublist keyBytes offset (offset + exponentLength.value)
  let exponent ← bytesToBigInteger exponentBytes
  pure ⟨modulus, exponent⟩

/-- DER walk of `parseRSAPrivateKeyFromPEM` (source lines 154-268).  The
INTEGER fields from the modulus on are reached through a bare `offset++`
with no tag or bounds check, exactly as in the source. -/
def parsePrivateKeyDer (keyBytes : Bytes) : Except DerErr RsaPriv := do
  if tagMismatch keyBytes 0 48 then throw .structuralTag
  let offset := 1
  let seqLength ← readLength keyBytes offset
  let offset := offset + seqLength.lengthBytes
  if tagMismatch keyBytes offset 2 then throw .structuralTag
  let offset := offset + 1
  let versionLength ← readLength keyBytes offset
  let offset := offset + versionLength.lengthBytes + versionLength.value
  if tagMismatch keyBytes offset 48 then throw .structuralTag
  let offset := offset + 1
  let algSeqLength ← readLength keyBytes offset
  let offset := offset + algSeqLength.lengthBytes + algSeqLength.value
  if tagMismatch keyBytes offset 4 then throw .structuralTag
  let offset := offset + 1
  let octetStringLength ← readLength keyBytes offset
  let offset := offset + octetStringLength.lengthBytes
  if tagMismatch keyBytes offset 48 then throw .structuralTag
  let offset := offset + 1
  let rsaSeqLength ← readLength keyBytes offset
  let offset := offset + rsaSeqLength.lengthBytes
  if tagMismatch keyBytes offset 2 then throw .structuralTag
  let offset := offset + 1
  let rsaVersionLength ← readLength keyBytes offset
  let offset := offset + rsaVersionLength.lengthBytes + rsaVersionLength.value
  -- modulus: `offset++; // Skip INTEGER tag` with no check
  let offset := offset + 1
  let modulusLength ← readLength keyBytes offset
  let offset := offset + modulusLength.lengthBytes
  let modulusBytes ← dartSublist keyBytes offset (offset + modulusLength.value)
  let offset := offset + modulusLength.value
  let modulus ← bytesToBigInteger modulusBytes
  -- public exponent: skipped, again without a tag check
  let offset := offset + 1
  let pubExpLength ← readLength keyBytes offset
  let offset := offset + pubExpLength.lengthBytes + pubExpLength.value
  -- private exponent
  let offset := offset + 1
  let privExpLength ← readLength keyBytes offset
  let offset := offset + privExpLength.lengthBytes
  let privExpBytes ← dartSublist keyBytes offset (offset + privExpLength.value)
  let offset := offset + privExpLength.value
  let privateExponent ← bytesToBigInteger privExpBytes
  -- prime1
  let offset := offset + 1
  let prime1Length ← readLength keyBytes offset
  let offset := offset + prime1Length.lengthBytes
  let prime1Bytes ← dartSublist keyBytes offset (offset + prime1Length.value)
  let offset := offset + prime1Length.value
  let prime1 ← bytesToBigInteger prime1Bytes
  -- prime2
  let offset := offset + 1
  let prime2Length ← readLength keyBytes offset
  let offset := offset + prime2Length.lengthBytes
  let prime2Bytes ← dartSublist keyBytes offset (offset + prime2Length.value)
  let offset := offset + prime2Length.value
  let prime2 ← bytesToBigInteger prime2Bytes
  -- exponent1, exponent2, coefficient: skipped, still reading lengths
  let offset := offset + 1
  let exp1Length ← readLength keyBytes offset
  let offset := offset + exp1Length.lengthBytes + exp1Length.value
  let offset := offset + 1
  let exp2Length ← readLength keyBytes offset
  let offset := offset + exp2Length.lengthBytes + exp2Length.value
  let offset := offset + 1
  let coeffLength ← readLength keyBytes offset
  let _ := offset + coeffLength.lengthBytes + coeffLength.value
  pure ⟨modulus, privateExponent, prime1, prime2⟩

/-- Remove every occurrence of `needle` (model of `replaceAll(m, '')`),
with an explicit fuel argument (one unit per removed occurrence; the text
length always suffices). -/
def removeSubAux (needle : Text) : Nat → Text → Text
  | 0, t => t
  | fuel + 1, t =>
    if needle = [] then t
    else
      match findSub needle t with
      | none => t
      | some i => t.take i ++ removeSubAux needle fuel (t.drop (i + needle.length))

def removeSub (needle : Text) (t : Text) : Text := removeSubAux needle t.length t

/-- Source `parseRSAPrivateKeyFromPEM`: strip the exact PEM markers and all
whitespace, strict base64 decode, then the DER walk. -/
def parseRSAPrivateKeyFromPEM (pem : Text) : Except DerErr RsaPriv := do
  let keyBase64 := stripWs (removeSub pemPrivEnd (removeSub pemPrivBegin pem))
  match dartB64decode keyBase64 with
  | none => throw .base64
  | some keyBytes => parsePrivateKeyDer keyBytes

/-- Source `parseRSAPublicKeyFromPEM`, simplified to the main path: strip
the exact public markers and whitespace (the regex fallback for bodies
shorter than 10 characters is not modelled), decode, check non-emptiness,
then the DER walk. -/
def parseRSAPublicKeyFromPEM (pem : Text) : Except DerErr RsaPub := do
  let keyBase64 := stripWs (removeSub pemPubEnd (removeSub pemPubBegin pem))
  if keyBase64 = [] then throw .structuralOther
  match dartB64decode keyBase64 with
  | none => throw .base64
  | some keyBytes =>
    if keyBytes = [] then throw .structuralOther
    else parsePublicKeyDer keyBytes

/-! ### Symmetric cipher layer: AES-256-CBC with PKCS#7 padding -/

/-- Modelled from the spec: the AES-256 block permutation itself lives in
the platform crypto libraries (Node `crypto`, pointycastle), not in this
repository.  Spec §4.3 describes the symmetric cipher as AES-256 in CBC
mode with PKCS#7 padding; the block primitive enters the model as an
abstract pair of mutually inverse maps on 16-byte blocks. -/
structure BlockSpec where
  enc : Bytes → Bytes → Bytes
  dec : Bytes → Bytes → Bytes
  enc_len : ∀ k b, b.length = 16 → (enc k b).length = 16
  enc_bytes : ∀ k b, b.length = 16 → IsBytes b → IsBytes (enc k b)
  dec_enc : ∀ k b, b.length = 16 → dec k (enc k b) = b

/-- Byte-wise XOR of two equal-length buffers. -/
def xorBytes (a b : Bytes) : Bytes := List.zipWith (· ^^^ ·) a b

/-- Split a buffer into 16-byte blocks (the last one possibly short),
with an explicit fuel argument (the buffer length always suffices). -/
def chunks16Aux : Nat → Bytes → List Bytes
  | 0, _ => []
  | _, [] => []
  | fuel + 1, bs => bs.take 16 :: chunks16Aux fuel (bs.drop 16)

def chunks16 (bs : Bytes) : List Bytes := chunks16Aux bs.length bs

/-- CBC chaining on block lists, encryption direction. -/
def cbcEncBlocks (B : BlockSpec) (k : Bytes) : Bytes → List Bytes → List Bytes
  | _, [] => []
  | prev, b :: bs =>
    let c := B.enc k (xorBytes prev b)
    c :: cbcEncBlocks B k c bs

/-- CBC chaining on block lists, decryption direction. -/
def cbcDecBlocks (B : BlockSpec) (k : Bytes) : Bytes → List Bytes → List Bytes
  | _, [] => []
  | prev, c :: cs => xorBytes prev (B.dec k c) :: cbcDecBlocks B k c cs

def cbcEncrypt (B : BlockSpec) (k iv pt : Bytes) : Bytes :=
  (cbcEncBlocks B k iv (chunks16 pt)).flatten

def cbcDecrypt (B : BlockSpec) (k iv ct : Bytes) : Bytes :=
  (cbcDecBlocks B k iv (chunks16 ct)).flatten

/-- PKCS#7 padding to 16-byte blocks. -/
def pkcs7pad (bs : Bytes) : Bytes :=
  let p := 16 - bs.length % 16
  bs ++ List.replicate p p

/-- PKCS#7 unpadding with full validation (spec §4.3: invalid padding must
be rejected, never silently truncated). -/
def pkcs7unpad (bs : Bytes) : Option Bytes :=
  match bs.getLast? with
  | none => none
  | some p =>
    if p = 0 ∨ 16 < p ∨ bs.length < p then none
    else if (bs.drop (bs.length - p)).all (· = p) then some (bs.take (bs.length - p))
    else none

/-- Source `encryptUsingAesKey` (both runtimes): create the CBC cipher
(the platform rejects a key that is not 32 bytes or an IV that is not 16
bytes), pad with PKCS#7 and encrypt.  The plaintext argument is the
already URI-encoded string; it enters as UTF-8 bytes. -/
def encryptUsingAesKeyModel (B : BlockSpec) (k iv : Bytes) (ptBytes : Bytes) :
    Except Err Bytes :=
  if k.length ≠ 32 ∨ iv.length ≠ 16 then .error .cipherError
  else .ok (cbcEncrypt B k iv (pkcs7pad ptBytes))

/-- Source `decryptUsingAesKey` of `cryptoUtils.js`: forgiving base64
decode of the ciphertext, then `createDecipheriv` (which rejects a key not
of 32 bytes or an IV not of 16 bytes), block-aligned CBC decryption and
validated unpadding (a misaligned or empty ciphertext and invalid padding
both make `decipher.final()` throw). -/
def decryptUsingAesKeyJs (B : BlockSpec) (k iv : Bytes) (ctB64 : Text) :
    Except Err Bytes :=
  let ct := jsB64decode ctB64
  if k.length ≠ 32 ∨ iv.length ≠ 16 then .error .cipherError
  else if ct = [] ∨ ct.length % 16 ≠ 0 then .error .cipherError
  else
    match pkcs7unpad (cbcDecrypt B k iv ct) with
    | some pt => .ok pt
    | none => .error .cipherError

/-- Source `decryptUsingAesKey` of `crypto_utils.dart`: strict base64
decode of the ciphertext, then the pointycastle CBC cipher (which rejects
an IV that is not one block and a key that is not 32 bytes), with PKCS#7
unpadding. -/
def decryptUsingAesKeyDart (B : BlockSpec) (iv k : Bytes) (ctB64 : Text) :
    Except Err Bytes :=
  match dartB64decode ctB64 with
  | none => .error .cipherError
  | some ct =>
    if k.length ≠ 32 ∨ iv.length ≠ 16 then .error .cipherError
    else if ct = [] ∨ ct.length % 16 ≠ 0 then .error .cipherError
    else
      match pkcs7unpad (cbcDecrypt B k iv ct) with
      | some pt => .ok pt
      | none => .error .cipherError

/-! ### Asymmetric cipher layer: RSA-OAEP -/

/-- OAEP hash configuration pinned by the sources (`rsaAlgorithm.hash` in
the Node services, the pointycastle `OAEPEncoding` default in Dart). -/
inductive OaepHash where
  | sha1
  | sha256
  deriving DecidableEq, Repr

/-- Modelled from the spec: RSA-OAEP is supplied by the platform crypto
libraries, not by this repository.  Spec §4.3 makes encrypt/decrypt
mutually inverse for a matching key pair under a single agreed hash, and
spec §9 states that a hash mismatch between the two ends causes
decryption failure.  Both laws, together with the byte-valuedness of the
ciphertext, are carried as fields. -/
structure OaepSpec where
  enc : OaepHash → RsaPub → Bytes → Bytes
  dec : OaepHash → RsaPriv → Bytes → Option Bytes
  Matching : RsaPub → RsaPriv → Prop
  dec_enc : ∀ h pk sk m, Matching pk sk → dec h sk (enc h pk m) = some m
  dec_mismatch : ∀ h h' pk sk m, h ≠ h' → Matching pk sk →
    dec h' sk (enc h pk m) = none
  enc_bytes : ∀ h pk m, IsBytes m → IsBytes (enc h pk m)

/-- Source `decryptUsingPrivateKey` of `cryptoUtils.js`: forgiving base64
decode, then OAEP decryption with the configured hash. -/
def decryptUsingPrivateKeyJs (O : OaepSpec) (h : OaepHash) (sk : RsaPriv)
    (ivB64 : Text) : Except Err Bytes :=
  match O.dec h sk (jsB64decode ivB64) with
  | some iv => .ok iv
  | none => .error .oaepError

/-- Source `decryptUsingPrivateKey` of `crypto_utils.dart`: strict base64
decode, then OAEP decryption (pointycastle default hash SHA-1). -/
def decryptUsingPrivateKeyDart (O : OaepSpec) (sk : RsaPriv) (ivB64 : Text) :
    Except Err Bytes :=
  match dartB64decode ivB64 with
  | none => .error .oaepError
  | some c =>
    match O.dec .sha1 sk c with
    | some iv => .ok iv
    | none => .error .oaepError

/-! ### The envelope pipelines -/

/-- Wire format `{encryptedDataBase64, encryptedIvBase64}` (both fields
base64 text). -/
structure Envelope where
  dataB64 : Text
  ivB64 : Text
  deriving DecidableEq, Repr

/-- Decryption result: the decoded string, or the value produced by the
platform JSON parser when the string parses as JSON. -/
inductive PlainResult (J : Type) where
  | str (t : Text)
  | json (v : J)
  deriving DecidableEq

/-- Final step of both decryption services: try `JSON.parse` /
`jsonDecode` (a platform primitive, passed as a parameter), fall back to
the plain string. -/
def jsonNormalize {J : Type} (jsonParse : Text → Option J) (t : Text) :
    PlainResult J :=
  match jsonParse t with
  | some v => .json v
  | none => .str t

/-- The `isBase64Key` test of the services:
`/^[A-Za-z0-9+/=]+$/.test(rawAesKey) && rawAesKey.length >= 32`. -/
def isBase64Key (rawAesKey : Text) : Bool :=
  rawAesKey ≠ [] && rawAesKey.all (fun c => (ringIdx c).isSome) &&
  32 ≤ rawAesKey.length

/-- Shared AES-key resolution gate of `part_001`/`part_000` and the Dart
service: pass the raw key through when it looks like PEM or base64,
otherwise Caesar-decrypt it. -/
def resolveAesKeyGated (rawAesKey : Text) : Except Err Text :=
  if containsSub strBegin rawAesKey || isBase64Key rawAesKey then .ok rawAesKey
  else modifiedCaesarDecrypt rawAesKey

/-- PEM gate of the encryptor: a key that already carries the standard
public marker passes through, anything else goes through `keyDecrypt`. -/
def resolvePubKeyGatedJs (rawPublicKey : Text) : Except Err Text :=
  if containsSub pemPubBegin rawPublicKey then pure rawPublicKey
  else keyDecryptJs rawPublicKey

/-- PEM gate of the `part_000` decryptor. -/
def resolvePrivKeyGatedJs (rawPrivateKey : Text) : Except Err Text :=
  if containsSub pemPrivBegin rawPrivateKey then pure rawPrivateKey
  else keyDecryptJs rawPrivateKey

/-- PEM gate of the Dart decryptor. -/
def resolvePrivKeyGatedDart (rawPrivateKey : Text) : Except Err Text :=
  if containsSub pemPrivBegin rawPrivateKey then pure rawPrivateKey
  else keyDecryptDart rawPrivateKey

/-- Source `hybridEncryption` of `part_001` (first variant, the one with
`hash: 'SHA-1'`): key gating, key import (`crypto.createPublicKey` is a
platform primitive, passed as `importPub`), URI-encoding of the plaintext
string, AES-CBC bulk encryption and OAEP encryption of the caller-supplied
random IV, then base64 of both outputs.  The IV is the value produced by
`crypto.randomBytes(16)` and enters as an argument. -/
def hybridEncryptionJsSha1 (O : OaepSpec) (B : BlockSpec)
    (importPub : Text → Option RsaPub)
    (p : Text) (rawPublicKey rawAesKey : Text) (iv : Bytes) :
    Except Err Envelope := do
  let decryptedAesKey ← resolveAesKeyGated rawAesKey
  let decryptedPublicKey ← resolvePubKeyGatedJs rawPublicKey
  let aesKey ← importAesKeyJs decryptedAesKey
  let pub ←
    match importPub decryptedPublicKey with
    | some k => pure k
    | none => throw .importFailed
  let encodedPlaintext := uriEncode p
  let ct ← encryptUsingAesKeyModel B aesKey iv (utf8Bytes encodedPlaintext)
  let civ := O.enc .sha1 pub iv
  pure ⟨b64encode ct, b64encode civ⟩

/-- Source `hybridDecryption` of `aes-poc/services/decryptionService.js`
(the variant with `hash: 'SHA-256'`): unconditional Caesar decryption of
the AES key and `keyDecrypt` of the private key, imports
(`crypto.createPrivateKey` is a platform primitive, `importPriv`), OAEP
recovery of the IV, AES-CBC decryption, UTF-8 decode, URI decode, JSON
attempt. -/
def hybridDecryptionJs256 {J : Type} (O : OaepSpec) (B : BlockSpec)
    (importPriv : Text → Option RsaPriv) (jsonParse : Text → Option J)
    (e : Envelope) (rawPrivateKey rawAesKey : Text) :
    Except Err (PlainResult J) := do
  let decryptedAesKey ← modifiedCaesarDecrypt rawAesKey
  let decryptedPrivateKey ← keyDecryptJs rawPrivateKey
  let aesKey ← importAesKeyJs decryptedAesKey
  let sk ←
    match importPriv decryptedPrivateKey with
    | some k => pure k
    | none => throw .importFailed
  let iv ← decryptUsingPrivateKeyJs O .sha256 sk e.ivB64
  let ptBytes ← decryptUsingAesKeyJs B aesKey iv e.dataB64
  let stringURI ←
    match utf8Decode ptBytes with
    | some t => pure t
    | none => throw .utf8Error
  let decoded ←
    match uriDecode stringURI with
    | some t => pure t
    | none => throw .uriError
  pure (jsonNormalize jsonParse decoded)

/-- Source `hybridDecryption` of `part_000` (the Node variant with
`hash: 'SHA-1'` and the same key gating as the encryptor). -/
def hybridDecryptionJsSha1 {J : Type} (O : OaepSpec) (B : BlockSpec)
    (importPriv : Text → Option RsaPriv) (jsonParse : Text → Option J)
    (e : Envelope) (rawPrivateKey rawAesKey : Text) :
    Except Err (PlainResult J) := do
  let decryptedAesKey ← resolveAesKeyGated rawAesKey
  let decryptedPrivateKey ← resolvePrivKeyGatedJs rawPrivateKey
  let aesKey ← importAesKeyJs decryptedAesKey
  let sk ←
    match importPriv decryptedPrivateKey with
    | some k => pure k
    | none => throw .importFailed
  let iv ← decryptUsingPrivateKeyJs O .sha1 sk e.ivB64
  let ptBytes ← decryptUsingAesKeyJs B aesKey iv e.dataB64
  let stringURI ←
    match utf8Decode ptBytes with
    | some t => pure t
    | none => throw .utf8Error
  let decoded ←
    match uriDecode stringURI with
    | some t => pure t
    | none => throw .uriError
  pure (jsonNormalize jsonParse decoded)

/-- Source `importPrivateKey` of `crypto_utils.dart`: trim, wrap a bare
body in standard private-key PEM markers with 64-character lines, then
`parseRSAPrivateKeyFromPEM`. -/
def importPrivateKeyDart (rawPrivateKey : Text) : Except Err RsaPriv :=
  if rawPrivateKey = [] then .error .required
  else
    let pemKey := trimText rawPrivateKey
    let pemKey :=
      if containsSub strBegin pemKey then pemKey
      else pemPrivBegin ++ [10] ++ chunk64 (stripWs pemKey) ++ pemPrivEnd
    match parseRSAPrivateKeyFromPEM pemKey with
    | .ok sk => .ok sk
    | .error _ => .error .importFailed

/-- Source `hybridDecryption` of `encryption_service.dart`: key gating as
in the Node SHA-1 pair, Dart key resolution and import, OAEP (pointycastle
default SHA-1), AES-CBC, UTF-8, URI decode, JSON attempt. -/
def hybridDecryptionDart {J : Type} (O : OaepSpec) (B : BlockSpec)
    (jsonParse : Text → Option J)
    (e : Envelope) (rawPrivateKey rawAesKey : Text) :
    Except Err (PlainResult J) := do
  let decryptedAesKey ← resolveAesKeyGated rawAesKey
  let decryptedPrivateKey ← resolvePrivKeyGatedDart rawPrivateKey
  let aesKey ← importAesKeyDart decryptedAesKey
  let sk ← importPrivateKeyDart decryptedPrivateKey
  let iv ← decryptUsingPrivateKeyDart O sk e.ivB64
  let ptBytes ← decryptUsingAesKeyDart B iv aesKey e.dataB64
  let stringURI ←
    match utf8Decode ptBytes with
    | some t => pure t
    | none => throw .utf8Error
  let decoded ←
    match uriDecode stringURI with
    | some t => pure t
    | none => throw .uriError
  pure (jsonNormalize jsonParse decoded)

/-! ### Concrete realizations of the spec-modelled platform interfaces

Used to instantiate the parameterized theorems at concrete inputs.  Any
pair of mutually inverse 16-byte block maps realizes `BlockSpec`; the
identity is the simplest.  `toyOaep` realizes `OaepSpec` by tagging the
message with the hash choice, which makes the spec §9 mismatch law hold
literally. -/

def toyBlock : BlockSpec where
  enc := fun _ b => b
  dec := fun _ b => b
  enc_len := fun _ _ h => h
  enc_bytes := fun _ _ _ hb => hb
  dec_enc := fun _ _ _ => rfl

def toyOaepTag : OaepHash → Nat
  | .sha1 => 1
  | .sha256 => 2

def toyOaep : OaepSpec where
  enc := fun h _ m => toyOaepTag h :: m
  dec := fun h _ c =>
    match c with
    | t :: rest => if t = toyOaepTag h then some rest else none
    | [] => none
  Matching := fun _ _ => True
  dec_enc := by intro h pk sk m _; simp
  dec_mismatch := by
    intro h h' pk sk m hne _
    cases h <;> cases h' <;> simp_all [toyOaepTag]
  enc_bytes := by
    intro h pk m hm b hb
    rcases List.mem_cons.mp hb with hb | hb
    · cases h <;> subst hb <;> simp [toyOaepTag]
    · exact hm b hb

/-! ### Concrete fixtures used by the theorems below -/

/-- DER bytes that walk `parsePrivateKeyFromDer` correctly up to the
modulus INTEGER, whose short-form length `0x7F` overruns the buffer. -/
def derLenOverrun : Bytes := [48, 32, 2, 1, 0, 48, 0, 4, 16, 48, 14, 2, 1, 0, 2, 127]

/-- DER bytes that walk correctly up to a modulus INTEGER with content
length zero (short-form length byte `0x00`). -/
def derEmptyInteger : Bytes := [48, 14, 2, 1, 0, 48, 0, 4, 7, 48, 5, 2, 1, 0, 2, 0]

/-- A well-formed miniature PKCS#8 RSAPrivateKey:
version 0, n = 15, e = 3, d = 3, p = 3, q = 5, exp1 = exp2 = coeff = 1. -/
def derPrivFixture : Bytes :=
  [48, 36, 2, 1, 0, 48, 0, 4, 29, 48, 27, 2, 1, 0, 2, 1, 15, 2, 1, 3, 2, 1, 3,
   2, 1, 3, 2, 1, 5, 2, 1, 1, 2, 1, 1, 2, 1, 1]

/-- `derPrivFixture` with the modulus INTEGER tag replaced by `0x05`:
the private-key walk never looks at that tag. -/
def derPrivWrongTag : Bytes :=
  [48, 36, 2, 1, 0, 48, 0, 4, 29, 48, 27, 2, 1, 0, 5, 1, 15, 2, 1, 3, 2, 1, 3,
   2, 1, 3, 2, 1, 5, 2, 1, 1, 2, 1, 1, 2, 1, 1]

/-- PEM rendering of `derPrivFixture` with standard private-key markers. -/
def pemPrivFixture : Text :=
  pemPrivBegin ++ [10] ++
  [77, 67, 81, 67, 65, 81, 65, 119, 65, 65, 81, 100, 77, 66, 115, 67, 65, 81,
   65, 67, 65, 81, 56, 67, 65, 81, 77, 67, 65, 81, 77, 67, 65, 81, 77, 67, 65,
   81, 85, 67, 65, 81, 69, 67, 65, 81, 69, 67, 65, 81, 69, 61, 10] ++
  pemPrivEnd

/-- The AES key example from the repository's own technical documentation
(`part_005`): `"zKIcOJK5ui+0GMdehxBYpaTnYltfjBn0ug9BziV2Aq8="`. -/
def docsAesKeyExample : Text :=
  [122, 75, 73, 99, 79, 74, 75, 53, 117, 105, 43, 48, 71, 77, 100, 101, 104,
   120, 66, 89, 112, 97, 84, 110, 89, 108, 116, 102, 106, 66, 110, 48, 117,
   103, 57, 66, 122, 105, 86, 50, 65, 113, 56, 61]

/-- Base64 decode of `docsAesKeyExample` (32 bytes). -/
def docsAesKeyDecoded : Bytes :=
  [204, 162, 28, 56, 146, 185, 186, 47, 180, 24, 199, 94, 135, 16, 88, 165,
   164, 231, 98, 91, 95, 140, 25, 244, 186, 15, 65, 206, 37, 118, 2, 175]

/-! ## Theorems -/

deriving instance DecidableEq for Except

theorem exceptBind_ok {ε α β : Type} (a : α) (f : α → Except ε β) :
    (Except.ok a : Except ε α) >>= f = f a := rfl

theorem exceptBind_error {ε α β : Type} (er : ε) (f : α → Except ε β) :
    (Except.error er : Except ε α) >>= f = .error er := rfl

/-! ### C8 / C9: `_bytesToBigInteger` -/

theorem decodeBigInt_foldl (bs : Bytes) (hb : IsBytes bs) :
    ∀ r : Nat, bs.foldl (fun result b => (result <<< 8) ||| b) r =
      r * 256 ^ bs.length +
        ∑ i ∈ Finset.range bs.length, bs.getD i 0 * 256 ^ (bs.length - 1 - i) := by
  induction bs with
  | nil => intro r; simp
  | cons b tl ih =>
    intro r
    have hb' : IsBytes tl := fun x hx => hb x (List.mem_cons_of_mem _ hx)
    have hbb : b < 256 := hb b (List.mem_cons_self _ _)
    have hshift : (r <<< 8) ||| b = r * 256 + b := by
      have h := Nat.mul_add_lt_is_or (show b < 2 ^ 8 by omega) r
      rw [Nat.shiftLeft_eq, Nat.mul_comm r (2 ^ 8), ← h]
    simp only [List.foldl_cons, hshift, ih hb']
    have hsum : ∑ i ∈ Finset.range (tl.length + 1),
        (b :: tl).getD i 0 * 256 ^ (tl.length + 1 - 1 - i) =
        (∑ i ∈ Finset.range tl.length, tl.getD i 0 * 256 ^ (tl.length - 1 - i))
          + b * 256 ^ tl.length := by
      rw [Finset.sum_range_succ']
      have hA : (∑ i ∈ Finset.range tl.length,
            (b :: tl).getD (i + 1) 0 * 256 ^ (tl.length + 1 - 1 - (i + 1))) =
          ∑ i ∈ Finset.range tl.length, tl.getD i 0 * 256 ^ (tl.length - 1 - i) := by
        refine Finset.sum_congr rfl fun i hi => ?_
        have h1 : (b :: tl).getD (i + 1) 0 = tl.getD i 0 := rfl
        have h2 : tl.length + 1 - 1 - (i + 1) = tl.length - 1 - i := by omega
        rw [h1, h2]
      have hB : (b :: tl).getD 0 0 * 256 ^ (tl.length + 1 - 1 - 0) = b * 256 ^ tl.length := by
        have h3 : tl.length + 1 - 1 - 0 = tl.length := by omega
        rw [h3]
        rfl
      rw [hA, hB]
    simp only [List.length_cons, hsum]
    ring

theorem decodeBigInt_spec (bs : Bytes) (hb : IsBytes bs) :
    decodeBigInt bs =
      ∑ i ∈ Finset.range bs.length, bs.getD i 0 * 256 ^ (bs.length - 1 - i) := by
  have h := decodeBigInt_foldl bs hb 0
  simpa [decodeBigInt] using h

theorem decodeBigInt_zero_cons (bs : Bytes) :
    decodeBigInt (0 :: bs) = decodeBigInt bs := by
  have h : ((0 : Nat) <<< 8) ||| 0 = 0 := by decide
  simp [decodeBigInt, h]

/-- Claim C8: for every non-empty byte sequence, `_bytesToBigInteger`
returns the big-endian unsigned value `∑ byte[i] * 256^(n-1-i)`; a set
high bit of the leading byte only causes a zero byte to be prepended,
which leaves that value unchanged. -/
theorem C8_bytesToBigInteger_value (bs : Bytes) (hne : bs ≠ []) (hb : IsBytes bs) :
    bytesToBigInteger bs =
      .ok (∑ i ∈ Finset.range bs.length, bs.getD i 0 * 256 ^ (bs.length - 1 - i)) := by
  match bs, hne with
  | b0 :: tl, _ =>
    rw [show bytesToBigInteger (b0 :: tl) =
      (if b0 &&& 128 ≠ 0 then .ok (decodeBigInt (0 :: b0 :: tl))
       else .ok (decodeBigInt (b0 :: tl))) from rfl]
    split
    · rw [decodeBigInt_zero_cons, decodeBigInt_spec _ hb]
    · rw [decodeBigInt_spec _ hb]

theorem C8_witness :
    bytesToBigInteger [129, 2] =
      .ok (∑ i ∈ Finset.range 2, [129, 2].getD i 0 * 256 ^ (2 - 1 - i)) :=
  C8_bytesToBigInteger_value [129, 2] (by decide) (by decide)

/-- Claim C9 (implicit): `_bytesToBigInteger` reads `bytes[0]`
unconditionally, so it needs a non-empty input; a DER input that is
structurally valid up to an INTEGER of content length zero (short-form
length byte `0x00`, accepted by `_readLength`) makes the private-key
decoder fail with an index-out-of-range error, not a structural decode
error. -/
theorem C9_empty_integer :
    parsePrivateKeyDer derEmptyInteger = .error .rangeIndex ∧
    DerErr.isStructural .rangeIndex = false ∧
    readLength derEmptyInteger 15 = .ok ⟨0, 1⟩ ∧
    bytesToBigInteger [] = .error .rangeIndex ∧
    (∀ bs : Bytes, bs ≠ [] → ∃ v, bytesToBigInteger bs = .ok v) := by
  refine ⟨by decide, by decide, by decide, by decide, ?_⟩
  intro bs hne
  match bs, hne with
  | b0 :: tl, _ =>
    rw [show bytesToBigInteger (b0 :: tl) =
      (if b0 &&& 128 ≠ 0 then (.ok (decodeBigInt (0 :: b0 :: tl)) : Except DerErr Nat)
       else .ok (decodeBigInt (b0 :: tl))) from rfl]
    split
    · exact ⟨_, rfl⟩
    · exact ⟨_, rfl⟩

theorem C9_witness :
    parsePrivateKeyDer derEmptyInteger = .error .rangeIndex ∧
    (∃ v, bytesToBigInteger [5] = .ok v) :=
  ⟨C9_empty_integer.1, C9_empty_integer.2.2.2.2 [5] (by decide)⟩

/-! ### C4: bounds and tag discipline of the DER decoders -/

/-- Counterexample to claim C4: the private-key walk reaches the modulus
INTEGER with every check of the source satisfied, yet a short-form length
`0x7F` that overruns the buffer surfaces as a RangeError from `sublist`
(not a structural decode error), and a wrong tag at the modulus position
is not detected at all — the walk accepts the input. -/
theorem C4_counterexample :
    (parsePrivateKeyDer derLenOverrun = .error .rangeSublist ∧
      DerErr.isStructural .rangeSublist = false) ∧
    parsePrivateKeyDer derPrivWrongTag = .ok ⟨15, 3, 3, 5⟩ := by
  exact ⟨⟨by decide, by decide⟩, by decide⟩

/-- Claim C4, amended: `_readLength` itself validates remaining-byte
bounds before every read — any failure it raises is a structural decode
error, on success the consumed length bytes lie inside the buffer, and a
long-form announced value is bounded by the buffer size.  (The short form
announces its value unchecked, and the private-key walk reads INTEGER
fields without tag or bounds checks; see the counterexample.) -/
theorem C4_readLength_inbounds (bytes : Bytes) (offset : Nat) :
    (∀ e, readLength bytes offset = .error e → e.isStructural = true) ∧
    (∀ v, readLength bytes offset = .ok v →
      offset + v.lengthBytes ≤ bytes.length ∧
      (bytes.getD offset 0 &&& 128 ≠ 0 → v.value ≤ bytes.length)) := by
  unfold readLength
  constructor
  · intro e he
    dsimp only at he
    split at he
    · cases he; rfl
    · split at he
      · cases he
      · split at he
        · cases he; rfl
        · split at he
          · cases he; rfl
          · split at he
            · cases he; rfl
            · cases he
  · intro v hv
    dsimp only at hv
    split at hv
    · cases hv
    · rename_i h1
      split at hv
      · rename_i hshort
        cases hv
        refine ⟨by dsimp only; omega, fun hc => absurd hshort hc⟩
      · split at hv
        · cases hv
        · split at hv
          · cases hv
          · split at hv
            · cases hv
            · rename_i hlol hb2 hval
              cases hv
              refine ⟨by dsimp only; omega, fun _ => by dsimp only; omega⟩

theorem C4_witness :
    DerErr.isStructural .structuralLen = true ∧
    (1 + (⟨3, 1⟩ : DerLen).lengthBytes ≤ ([48, 3] : Bytes).length ∧
      (([48, 3] : Bytes).getD 1 0 &&& 128 ≠ 0 → (⟨3, 1⟩ : DerLen).value ≤ ([48, 3] : Bytes).length)) :=
  ⟨(C4_readLength_inbounds [] 0).1 .structuralLen (by decide),
   (C4_readLength_inbounds [48, 3] 1).2 ⟨3, 1⟩ (by decide)⟩

/-! ### C2: symmetric key derivation ignores base64 in the Node runtime -/

/-- Claim C2 against the Node implementation: the repository's own
documentation key example matches the base64 alphabet with length ≥ 32,
the Dart `importAesKey` derives the key from its base64 decode, but the
Node `importAesKey` uses the raw UTF-8 text bytes (truncated to 32), never
attempting a base64 decode — contradicting both the claim and the
repository documentation (`part_005`: "Tries base64 decode first"). -/
theorem C2_importAesKey_ignores_base64 :
    isBase64Key docsAesKeyExample = true ∧
    dartB64decode docsAesKeyExample = some docsAesKeyDecoded ∧
    importAesKeyDart docsAesKeyExample = .ok docsAesKeyDecoded ∧
    importAesKeyJs docsAesKeyExample = .ok ((utf8Bytes docsAesKeyExample).take 32) ∧
    importAesKeyJs docsAesKeyExample ≠ importAesKeyDart docsAesKeyExample := by
  decide

/-! ### C6: the resolved symmetric key is exactly 32 bytes -/

theorem rangeMap_getD (bs : Bytes) : ∀ n, bs.length ≤ n →
    (List.range n).map (fun i => bs.getD i 0) = bs ++ List.replicate (n - bs.length) 0 := by
  induction bs with
  | nil =>
    intro n _
    simp only [List.nil_append, List.length_nil, Nat.sub_zero]
    refine List.eq_replicate_iff.mpr ⟨by simp, ?_⟩
    intro x hx
    rcases List.mem_map.mp hx with ⟨i, _, hi⟩
    simpa using hi.symm
  | cons b tl ih =>
    intro n hn
    cases n with
    | zero => simp at hn
    | succ m =>
      rw [List.range_succ_eq_map]
      simp only [List.map_cons, List.map_map]
      have hfn : (fun i => (b :: tl).getD i 0) ∘ (· + 1) = fun i => tl.getD i 0 := rfl
      have hm : tl.length ≤ m := by
        simp only [List.length_cons] at hn
        omega
      rw [hfn, ih m hm]
      have harith : m + 1 - (b :: tl).length = m - tl.length := by
        simp only [List.length_cons]
        omega
      simp [harith]

theorem alloc32copy_eq (bs : Bytes) (h : bs.length ≤ 32) :
    alloc32copy bs = bs ++ List.replicate (32 - bs.length) 0 :=
  rangeMap_getD bs 32 h

/-- Claim C6: for every non-empty key input, both `importAesKey`
implementations return exactly 32 bytes — right-padding with zeros when
the derived bytes are shorter than 32 and truncating to the first 32 when
longer (the Node key bytes are the UTF-8 text bytes, the Dart key bytes
are `dartAesKeyBytes`). -/
theorem C6_importAesKey_32 (raw : Text) (hne : raw ≠ []) :
    ∃ kj kd, importAesKeyJs raw = .ok kj ∧ importAesKeyDart raw = .ok kd ∧
      kj.length = 32 ∧ kd.length = 32 ∧
      ((utf8Bytes raw).length ≤ 32 →
        kj = utf8Bytes raw ++ List.replicate (32 - (utf8Bytes raw).length) 0) ∧
      (32 ≤ (utf8Bytes raw).length → kj = (utf8Bytes raw).take 32) ∧
      ((dartAesKeyBytes raw).length ≤ 32 →
        kd = dartAesKeyBytes raw ++ List.replicate (32 - (dartAesKeyBytes raw).length) 0) ∧
      (32 ≤ (dartAesKeyBytes raw).length → kd = (dartAesKeyBytes raw).take 32) := by
  have norm : ∀ bs : Bytes,
      ∃ k, (if bs.length < 32 then (.ok (alloc32copy bs) : Except Err Bytes)
            else if 32 < bs.length then .ok (bs.take 32) else .ok bs) = .ok k ∧
        k.length = 32 ∧
        (bs.length ≤ 32 → k = bs ++ List.replicate (32 - bs.length) 0) ∧
        (32 ≤ bs.length → k = bs.take 32) := by
    intro bs
    by_cases h1 : bs.length < 32
    · refine ⟨alloc32copy bs, by simp [h1], ?_, ?_, ?_⟩
      · simp [alloc32copy]
      · intro _
        exact alloc32copy_eq bs (by omega)
      · intro h2
        omega
    · by_cases h2 : 32 < bs.length
      · refine ⟨bs.take 32, by simp [h1, h2], ?_, ?_, ?_⟩
        · simp
          omega
        · intro h3
          omega
        · intro _
          rfl
      · have hlen : bs.length = 32 := by omega
        refine ⟨bs, by simp [h1, h2], hlen, ?_, ?_⟩
        · intro _
          simp [hlen]
        · intro _
          rw [List.take_of_length_le (by omega)]
  obtain ⟨kj, hkj, hkjl, hkjp, hkjt⟩ := norm (utf8Bytes raw)
  obtain ⟨kd, hkd, hkdl, hkdp, hkdt⟩ := norm (dartAesKeyBytes raw)
  refine ⟨kj, kd, ?_, ?_, hkjl, hkdl, hkjp, hkjt, hkdp, hkdt⟩
  · rw [importAesKeyJs, if_neg hne]
    exact hkj
  · rw [importAesKeyDart, if_neg hne]
    exact hkd

theorem C6_witness :
    ∃ kj kd, importAesKeyJs [107] = .ok kj ∧ importAesKeyDart [107] = .ok kd ∧
      kj.length = 32 ∧ kd.length = 32 ∧
      ((utf8Bytes [107]).length ≤ 32 →
        kj = utf8Bytes [107] ++ List.replicate (32 - (utf8Bytes [107]).length) 0) ∧
      (32 ≤ (utf8Bytes [107]).length → kj = (utf8Bytes [107]).take 32) ∧
      ((dartAesKeyBytes [107]).length ≤ 32 →
        kd = dartAesKeyBytes [107] ++ List.replicate (32 - (dartAesKeyBytes [107]).length) 0) ∧
      (32 ≤ (dartAesKeyBytes [107]).length → kd = (dartAesKeyBytes [107]).take 32) :=
  C6_importAesKey_32 [107] (by decide)

/-! ### C10: bare bodies are always wrapped as PUBLIC KEY -/

theorem wrapKey_default_public (d : Text) :
    pemPubBegin.isPrefixOf (wrapKey false false d) = true := by
  unfold wrapKey
  simp only [Bool.false_eq_true, if_false]
  have hassoc : pemPubBegin ++ [10] ++ chunk64 (stripWs d) ++ pemPubEnd =
      pemPubBegin ++ ([10] ++ chunk64 (stripWs d) ++ pemPubEnd) := by
    simp [List.append_assoc]
  rw [hassoc]
  exact List.isPrefixOf_iff_prefix.mpr (List.prefix_append _ _)

/-- Claim C10 (implicit): when the key material carries none of the
recognized begin/end markers, both `keyDecrypt` implementations label
whatever they return as a standard public key: every successful result
starts with `-----BEGIN PUBLIC KEY-----`, so unmarked private-key material
comes back labelled as a public key. -/
theorem C10_bare_body_public_wrap (key : Text)
    (h1 : containsSub decoyPubBegin key = false)
    (h2 : containsSub decoyPrivBegin key = false)
    (h3 : (containsSub strBegin key && containsSub strEnd key) = false) :
    (∀ out, keyDecryptJs key = .ok out → pemPubBegin.isPrefixOf out = true) ∧
    (∀ out, keyDecryptDart key = .ok out → pemPubBegin.isPrefixOf out = true) := by
  have hext : extractKey key = (false, false, trimText key) := by
    unfold extractKey
    simp [h1, h2, h3]
  constructor
  · intro out hout
    unfold keyDecryptJs at hout
    rw [hext] at hout
    split at hout
    · cases hout
    · dsimp only at hout
      split at hout
      · cases hout
      · split at hout
        · cases hout
        · cases hout
          exact wrapKey_default_public _
  · intro out hout
    unfold keyDecryptDart at hout
    rw [hext] at hout
    split at hout
    · cases hout
    · dsimp only at hout
      split at hout
      · cases hout
      · split at hout
        · cases hout
        · split at hout
          · cases hout
          · cases hout
            exact wrapKey_default_public _

theorem C10_witness :
    keyDecryptJs [78, 66, 65, 65] =
      .ok (wrapKey false false (decryptB64WithShift 1 [78, 66, 65, 65])) ∧
    pemPubBegin.isPrefixOf
      (wrapKey false false (decryptB64WithShift 1 [78, 66, 65, 65])) = true :=
  ⟨by decide,
   (C10_bare_body_public_wrap [78, 66, 65, 65] (by decide) (by decide) (by decide)).1
     _ (by decide)⟩

/-! ### C3: behaviour when no shift passes the 0x30 oracle -/

theorem firstTextHit_eq_none (accept : Text → Nat → Bool) (clean : Text)
    (l : List Nat) (h : ∀ s ∈ l, accept clean s = false) :
    firstTextHit accept clean l = none := by
  induction l with
  | nil => rfl
  | cons s ss ih =>
    unfold firstTextHit
    rw [h s (List.mem_cons_self _ _)]
    simp only [Bool.false_eq_true, if_false]
    exact ih fun x hx => h x (List.mem_cons_of_mem _ hx)

theorem firstByteHit_eq_none (bs : Bytes) (l : List Nat)
    (h : ∀ s ∈ l, byteAccept bs s = false) :
    firstByteHit bs l = none := by
  induction l with
  | nil => rfl
  | cons s ss ih =>
    unfold firstByteHit
    rw [h s (List.mem_cons_self _ _)]
    simp only [Bool.false_eq_true, if_false]
    exact ih fun x hx => h x (List.mem_cons_of_mem _ hx)

theorem mem_dartShiftOrder (s : Nat) (hs : s ∈ dartShiftOrder) : s ∈ shiftRange := by
  rcases List.mem_cons.mp hs with h | h
  · subst h
    decide
  · exact List.mem_of_mem_filter h

/-- Claim C3, amended: when no cyclic shift in `[1,20]` — text-ring or
byte-wise — produces a decoded leading byte `0x30`, the Dart `keyDecrypt`
raises an error and never returns key material; the Node `keyDecrypt` of
`part_002`, by contrast, falls back to an unchecked fixed shift-3 text
decryption and returns its (unvalidated) result — see the
counterexample. -/
theorem C3_dart_no_shift_error (key : Text) (hne : key ≠ [])
    (isPub isPriv : Bool) (body : Text)
    (hext : extractKey key = (isPub, isPriv, body))
    (hbody : body ≠ [])
    (htext : ∀ s ∈ shiftRange, dartTextAccept (stripWs body) s = false)
    (hbyte : match dartB64decode (stripWs body) with
      | some bs => ∀ s ∈ shiftRange, byteAccept bs s = false
      | none => True) :
    keyDecryptDart key = .error .decryptFailed := by
  unfold keyDecryptDart
  rw [if_neg hne, hext]
  dsimp only
  rw [if_neg hbody]
  have hth : firstTextHit dartTextAccept (stripWs body) dartShiftOrder = none :=
    firstTextHit_eq_none _ _ _ fun s hs => htext s (mem_dartShiftOrder s hs)
  rw [hth]
  match hdec : dartB64decode (stripWs body) with
  | none => rfl
  | some ebs =>
    rw [hdec] at hbyte
    dsimp only
    rw [firstByteHit_eq_none _ _ hbyte]

theorem C3_witness :
    keyDecryptDart [65, 65, 65, 65] = .error .decryptFailed :=
  C3_dart_no_shift_error [65, 65, 65, 65] (by decide) false false [65, 65, 65, 65]
    (by decide) (by decide) (by decide)
    ((by decide : ∀ s ∈ shiftRange, byteAccept [0, 0, 0] s = false))

/-- Counterexample to claim C3 as stated: for the bare body `"AAAA"` no
shift in `[1,20]` passes the `0x30` oracle (text-ring with either
decoder, or byte-wise), yet the Node `keyDecrypt` returns key material —
the shift-3 fallback text decryption wrapped in PUBLIC KEY markers —
instead of raising an error. -/
theorem C3_counterexample :
    extractKey [65, 65, 65, 65] = (false, false, [65, 65, 65, 65]) ∧
    (∀ s ∈ shiftRange, jsTextAccept [65, 65, 65, 65] s = false) ∧
    (∀ s ∈ shiftRange, dartTextAccept [65, 65, 65, 65] s = false) ∧
    (∀ s ∈ shiftRange, byteAccept (jsB64decode [65, 65, 65, 65]) s = false) ∧
    keyDecryptJs [65, 65, 65, 65] =
      .ok (wrapKey false false (decryptB64WithShift 3 [65, 65, 65, 65])) := by
  decide

/-! ### C5: a recovered IV that is not 16 bytes never yields a result -/

/-- Claim C5: in both decryption services, whenever the RSA-OAEP
decryption of the encrypted IV yields a byte string whose length is not
exactly 16, the operation fails (the CBC layer of the platform cipher
rejects any IV that is not one block before any data is produced); a
non-16-byte IV is never turned into a decryption result. -/
theorem C5_non16_iv_fails {J : Type} (O : OaepSpec) (B : BlockSpec)
    (importPriv : Text → Option RsaPriv) (jsonParse : Text → Option J)
    (e : Envelope) (rawPrivateKey rawAesKey : Text) :
    (∀ dk pk k sk iv,
      modifiedCaesarDecrypt rawAesKey = .ok dk →
      keyDecryptJs rawPrivateKey = .ok pk →
      importAesKeyJs dk = .ok k →
      importPriv pk = some sk →
      O.dec .sha256 sk (jsB64decode e.ivB64) = some iv →
      iv.length ≠ 16 →
      hybridDecryptionJs256 (J := J) O B importPriv jsonParse e rawPrivateKey rawAesKey
        = .error .cipherError) ∧
    (∀ dk pk k sk civ iv ct,
      resolveAesKeyGated rawAesKey = .ok dk →
      resolvePrivKeyGatedDart rawPrivateKey = .ok pk →
      importAesKeyDart dk = .ok k →
      importPrivateKeyDart pk = .ok sk →
      dartB64decode e.ivB64 = some civ →
      O.dec .sha1 sk civ = some iv →
      dartB64decode e.dataB64 = some ct →
      iv.length ≠ 16 →
      hybridDecryptionDart (J := J) O B jsonParse e rawPrivateKey rawAesKey
        = .error .cipherError) := by
  constructor
  · intro dk pk k sk iv hdk hpk hk hsk hiv hlen
    unfold hybridDecryptionJs256
    rw [hdk, hpk]
    simp only [exceptBind_ok, pure_bind]
    rw [hk, hsk]
    simp only [exceptBind_ok, pure_bind]
    unfold decryptUsingPrivateKeyJs
    rw [hiv]
    simp only [exceptBind_ok, pure_bind]
    unfold decryptUsingAesKeyJs
    rw [if_pos (Or.inr hlen)]
    rfl
  · intro dk pk k sk civ iv ct hdk hpk hk hsk hcb hiv hct hlen
    unfold hybridDecryptionDart
    rw [hdk, hpk]
    simp only [exceptBind_ok, pure_bind]
    rw [hk, hsk]
    simp only [exceptBind_ok, pure_bind]
    unfold decryptUsingPrivateKeyDart
    rw [hcb]
    dsimp only
    rw [hiv]
    simp only [exceptBind_ok, pure_bind]
    unfold decryptUsingAesKeyDart
    rw [hct]
    dsimp only
    rw [if_pos (Or.inr hlen)]
    rfl

theorem C5_witness :
    hybridDecryptionJs256 (J := Unit) toyOaep toyBlock (fun _ => some ⟨15, 3, 3, 5⟩)
      (fun _ => none) ⟨[65, 65, 65, 65], b64encode [2, 5, 6, 7]⟩
      [78, 66, 65, 65] [107, 33] = .error .cipherError ∧
    hybridDecryptionDart (J := Unit) toyOaep toyBlock
      (fun _ => none) ⟨[65, 65, 65, 65], b64encode [1, 5, 6, 7]⟩
      pemPrivFixture [107, 33] = .error .cipherError :=
  ⟨(C5_non16_iv_fails toyOaep toyBlock (fun _ => some ⟨15, 3, 3, 5⟩) (fun _ => none)
      ⟨[65, 65, 65, 65], b64encode [2, 5, 6, 7]⟩ [78, 66, 65, 65] [107, 33]).1
      [104, 33] (wrapKey false false (decryptB64WithShift 1 [78, 66, 65, 65]))
      (104 :: 33 :: List.replicate 30 0) ⟨15, 3, 3, 5⟩ [5, 6, 7]
      (by decide) (by decide) (by decide) rfl (by decide) (by decide),
   (C5_non16_iv_fails toyOaep toyBlock (fun _ => some ⟨15, 3, 3, 5⟩) (fun _ => none)
      ⟨[65, 65, 65, 65], b64encode [1, 5, 6, 7]⟩ pemPrivFixture [107, 33]).2
      [104, 33] pemPrivFixture (104 :: 33 :: List.replicate 30 0) ⟨15, 3, 3, 5⟩
      [1, 5, 6, 7] [5, 6, 7] [0, 0, 0]
      (by decide) (by decide) (by decide) (by decide) (by decide) (by decide)
      (by decide) (by decide)⟩

/-! ### The 65-symbol ring and base64 round trips -/

theorem sixBit_lt (c v : Nat) (h : sixBit c = some v) : v < 64 := by
  unfold sixBit at h
  match hri : ringIdx c with
  | none => rw [hri] at h; cases h
  | some i =>
    rw [hri] at h
    dsimp only at h
    by_cases hlt : i < 64
    · rw [if_pos hlt] at h
      cases h
      omega
    · rw [if_neg hlt] at h
      cases h

theorem sixBit_ringChar : ∀ i < 64, sixBit (ringChar i) = some i := by decide

theorem ringIdx_ringChar : ∀ i < 65, ringIdx (ringChar i) = some i := by decide

theorem ringChar_64 : ringChar 64 = 61 := by decide

theorem sixBit_61 : sixBit 61 = none := by decide

theorem base64Chars_getD : ∀ i < 65, base64Chars.getD i 0 =
    (if i < 26 then 65 + i else if i < 52 then 71 + i else if i < 62 then i - 4
     else if i = 62 then 43 else if i = 63 then 47 else 61) := by decide

theorem ringChar_of_ringIdx (c i : Nat) (h : ringIdx c = some i) :
    ringChar i = c ∧ i < 65 := by
  unfold ringIdx at h
  split at h
  · cases h
    rename_i hc
    have hi : c - 65 < 65 := by omega
    refine ⟨?_, hi⟩
    rw [ringChar, base64Chars_getD _ hi]
    split <;> omega
  · split at h
    · cases h
      rename_i hc
      have hi : c - 71 < 65 := by omega
      refine ⟨?_, hi⟩
      rw [ringChar, base64Chars_getD _ hi]
      split
      · omega
      · split <;> omega
    · split at h
      · cases h
        rename_i hc
        have hi : c - 48 + 52 < 65 := by omega
        refine ⟨?_, hi⟩
        rw [ringChar, base64Chars_getD _ hi]
        split
        · omega
        · split
          · omega
          · split <;> omega
      · split at h
        · cases h
          rename_i hc
          rw [hc]
          exact ⟨by decide, by decide⟩
        · split at h
          · cases h
            rename_i hc
            rw [hc]
            exact ⟨by decide, by decide⟩
          · split at h
            · cases h
              rename_i hc
              rw [hc]
              exact ⟨by decide, by decide⟩
            · cases h

theorem decShift_rotRing (s : Nat) (hs : s ≤ 65) (t : Text) :
    decryptB64WithShift s (rotRing s t) = t := by
  unfold decryptB64WithShift rotRing
  rw [List.map_map]
  conv_rhs => rw [← List.map_id t]
  refine List.map_congr_left fun c _ => ?_
  dsimp only [Function.comp, id]
  match hri : ringIdx c with
  | none => rw [hri]
  | some i =>
    dsimp only
    obtain ⟨hc_eq, hilt⟩ := ringChar_of_ringIdx c i hri
    have hlt : (i + s) % 65 < 65 := Nat.mod_lt _ (by norm_num)
    rw [ringIdx_ringChar _ hlt]
    dsimp only
    have harith : ((i + s) % 65 + 65 - s) % 65 = i := by omega
    rw [harith, hc_eq]

/-- A text whose characters all lie on the 65-symbol ring. -/
def AllRing (t : Text) : Prop := ∀ c ∈ t, ∃ i, i < 65 ∧ c = ringChar i

theorem allRing_b64encode (bs : Bytes) (hb : IsBytes bs) : AllRing (b64encode bs) := by
  induction bs using b64encode.induct with
  | case1 => intro c hc; cases hc
  | case2 a =>
    have ha : a < 256 := hb a (by simp)
    intro c hc
    rcases hc with _ | ⟨_, _ | ⟨_, _ | ⟨_, _ | ⟨_, h⟩⟩⟩⟩
    · exact ⟨a / 4, by omega, rfl⟩
    · exact ⟨a % 4 * 16, by omega, rfl⟩
    · exact ⟨64, by omega, ringChar_64.symm⟩
    · exact ⟨64, by omega, ringChar_64.symm⟩
    · cases h
  | case3 a b =>
    have ha : a < 256 := hb a (by simp)
    have hbb : b < 256 := hb b (by simp)
    intro c hc
    rcases hc with _ | ⟨_, _ | ⟨_, _ | ⟨_, _ | ⟨_, h⟩⟩⟩⟩
    · exact ⟨a / 4, by omega, rfl⟩
    · exact ⟨a % 4 * 16 + b / 16, by omega, rfl⟩
    · exact ⟨b % 16 * 4, by omega, rfl⟩
    · exact ⟨64, by omega, ringChar_64.symm⟩
    · cases h
  | case4 a b c rest ih =>
    have ha : a < 256 := hb a (by simp)
    have hbb : b < 256 := hb b (by simp)
    have hcc : c < 256 := hb c (by simp)
    have hrest : IsBytes rest := fun x hx => hb x (by simp [hx])
    intro x hx
    rcases hx with _ | ⟨_, _ | ⟨_, _ | ⟨_, _ | ⟨_, h⟩⟩⟩⟩
    · exact ⟨a / 4, by omega, rfl⟩
    · exact ⟨a % 4 * 16 + b / 16, by omega, rfl⟩
    · exact ⟨b % 16 * 4 + c / 64, by omega, rfl⟩
    · exact ⟨c % 64, by omega, rfl⟩
    · exact ih hrest x h

theorem allRing_rotRing (s : Nat) (t : Text) (h : AllRing t) :
    AllRing (rotRing s t) := by
  intro c hc
  rcases List.mem_map.mp hc with ⟨c0, hc0, heq⟩
  obtain ⟨i, hi, hc0eq⟩ := h c0 hc0
  subst hc0eq
  rw [ringIdx_ringChar _ hi] at heq
  exact ⟨(i + s) % 65, Nat.mod_lt _ (by norm_num), heq.symm⟩

theorem ringChar_not_ws : ∀ i < 65, isWsChar (ringChar i) = false := by decide

theorem ringChar_ne_45 : ∀ i < 65, ringChar i ≠ 45 := by decide

theorem allRing_no_ws (t : Text) (h : AllRing t) : ∀ c ∈ t, isWsChar c = false := by
  intro c hc
  obtain ⟨i, hi, heq⟩ := h c hc
  subst heq
  exact ringChar_not_ws i hi

theorem allRing_no_45 (t : Text) (h : AllRing t) : 45 ∉ t := by
  intro hmem
  obtain ⟨i, hi, heq⟩ := h 45 hmem
  exact ringChar_ne_45 i hi heq.symm

theorem stripWs_eq_self (t : Text) (h : ∀ c ∈ t, isWsChar c = false) :
    stripWs t = t := by
  unfold stripWs
  refine List.filter_eq_self.mpr fun c hc => ?_
  simp [h c hc]

theorem dropWhile_eq_self_of (p : Nat → Bool) (t : Text)
    (h : ∀ c ∈ t, p c = false) : t.dropWhile p = t := by
  cases t with
  | nil => rfl
  | cons c rest =>
    rw [List.dropWhile_cons, h c (List.mem_cons_self _ _)]
    simp

theorem trimText_eq_self (t : Text) (h : ∀ c ∈ t, isWsChar c = false) :
    trimText t = t := by
  unfold trimText
  rw [dropWhile_eq_self_of _ _ h,
    dropWhile_eq_self_of _ _ (fun c hc => h c (List.mem_reverse.mp hc)),
    List.reverse_reverse]

theorem containsSub_eq_false_of_head (c0 : Nat) (m' : Text) (key : Text)
    (h : c0 ∉ key) : containsSub (c0 :: m') key = false := by
  unfold containsSub
  rw [List.any_eq_false]
  intro i _
  cases hd : key.drop i with
  | nil => simp [List.isPrefixOf]
  | cons x xs =>
    have hx : x ∈ key := List.mem_of_mem_drop (by rw [hd]; exact List.mem_cons_self _ _)
    have hne : c0 ≠ x := fun he => h (he ▸ hx)
    simp [List.isPrefixOf, hne]

theorem jsB64_roundtrip (bs : Bytes) (hb : IsBytes bs) :
    jsB64decode (b64encode bs) = bs := by
  unfold jsB64decode
  induction bs using b64encode.induct with
  | case1 => rfl
  | case2 a =>
    have ha : a < 256 := hb a (by simp)
    have h1 : sixBit (ringChar (a / 4)) = some (a / 4) := sixBit_ringChar _ (by omega)
    have h2 : sixBit (ringChar (a % 4 * 16)) = some (a % 4 * 16) :=
      sixBit_ringChar _ (by omega)
    simp only [b64encode, List.filterMap_cons, h1, h2, sixBit_61, List.filterMap_nil]
    simp only [packSextets]
    have : a / 4 * 4 + a % 4 * 16 / 16 = a := by omega
    rw [this]
  | case3 a b =>
    have ha : a < 256 := hb a (by simp)
    have hbb : b < 256 := hb b (by simp)
    have h1 : sixBit (ringChar (a / 4)) = some (a / 4) := sixBit_ringChar _ (by omega)
    have h2 : sixBit (ringChar (a % 4 * 16 + b / 16)) = some (a % 4 * 16 + b / 16) :=
      sixBit_ringChar _ (by omega)
    have h3 : sixBit (ringChar (b % 16 * 4)) = some (b % 16 * 4) :=
      sixBit_ringChar _ (by omega)
    simp only [b64encode, List.filterMap_cons, h1, h2, h3, sixBit_61, List.filterMap_nil]
    simp only [packSextets]
    have e1 : a / 4 * 4 + (a % 4 * 16 + b / 16) / 16 = a := by omega
    have e2 : (a % 4 * 16 + b / 16) % 16 * 16 + b % 16 * 4 / 4 = b := by omega
    rw [e1, e2]
  | case4 a b c rest ih =>
    have ha : a < 256 := hb a (by simp)
    have hbb : b < 256 := hb b (by simp)
    have hcc : c < 256 := hb c (by simp)
    have hrest : IsBytes rest := fun x hx => hb x (by simp [hx])
    have h1 : sixBit (ringChar (a / 4)) = some (a / 4) := sixBit_ringChar _ (by omega)
    have h2 : sixBit (ringChar (a % 4 * 16 + b / 16)) = some (a % 4 * 16 + b / 16) :=
      sixBit_ringChar _ (by omega)
    have h3 : sixBit (ringChar (b % 16 * 4 + c / 64)) = some (b % 16 * 4 + c / 64) :=
      sixBit_ringChar _ (by omega)
    have h4 : sixBit (ringChar (c % 64)) = some (c % 64) := sixBit_ringChar _ (by omega)
    simp only [b64encode, List.filterMap_cons, h1, h2, h3, h4]
    simp only [packSextets]
    have e1 : a / 4 * 4 + (a % 4 * 16 + b / 16) / 16 = a := by omega
    have e2 : (a % 4 * 16 + b / 16) % 16 * 16 + (b % 16 * 4 + c / 64) / 4 = b := by omega
    have e3 : (b % 16 * 4 + c / 64) % 4 * 64 + c % 64 = c := by omega
    rw [e1, e2, e3]
    exact congrArg₂ _ rfl (congrArg₂ _ rfl (congrArg₂ _ rfl (ih hrest)))

theorem packSextets_cons_head (j0 : Nat) (L : List Nat) (hj : j0 ≠ 12)
    (hL : ∀ v ∈ L, v < 64) : (packSextets (j0 :: L)).head? ≠ some 48 := by
  match L with
  | [] => simp [packSextets]
  | [b] =>
    have hbv : b < 64 := hL b (by simp)
    simp only [packSextets, List.head?_cons, ne_eq, Option.some.injEq]
    omega
  | [b, c] =>
    have hbv : b < 64 := hL b (by simp)
    simp only [packSextets, List.head?_cons, ne_eq, Option.some.injEq]
    omega
  | b :: c :: d :: rest =>
    have hbv : b < 64 := hL b (by simp)
    simp only [packSextets, List.head?_cons, ne_eq, Option.some.injEq]
    omega

theorem mem_filterMap_sixBit_lt (t : Text) : ∀ v ∈ t.filterMap sixBit, v < 64 := by
  intro v hv
  rcases List.mem_filterMap.mp hv with ⟨c, _, hc⟩
  exact sixBit_lt c v hc

theorem dartB64decode_some_eq (t : Text) (bs : Bytes)
    (h : dartB64decode t = some bs) : bs = packSextets (t.filterMap sixBit) := by
  unfold dartB64decode at h
  split at h
  · cases h
    rfl
  · cases h

theorem dropLast_cons_of_ne_nil (x : Nat) (l : Text) (h : l ≠ []) :
    (x :: l).dropLast = x :: l.dropLast := by
  cases l with
  | nil => exact absurd rfl h
  | cons y ys => rfl

theorem b64encode_len_mod (bs : Bytes) : (b64encode bs).length % 4 = 0 := by
  induction bs using b64encode.induct with
  | case1 => simp [b64encode]
  | case2 a => simp [b64encode]
  | case3 a b => simp [b64encode]
  | case4 a b c rest ih =>
    simp only [b64encode, List.length_cons]
    omega

theorem b64encode_len_ge (bs : Bytes) (h : bs ≠ []) : 4 ≤ (b64encode bs).length := by
  match bs, h with
  | [a], _ => simp [b64encode]
  | [a, b], _ => simp [b64encode]
  | a :: b :: c :: rest, _ =>
    simp only [b64encode, List.length_cons]
    omega

theorem dartB64valid_prepend4 (c0 c1 c2 c3 j0 j1 j2 j3 : Nat)
    (h0 : sixBit c0 = some j0) (h1 : sixBit c1 = some j1)
    (h2 : sixBit c2 = some j2) (h3 : sixBit c3 = some j3)
    (t : Text) (hne : t ≠ []) (hv : dartB64valid t = true) :
    dartB64valid (c0 :: c1 :: c2 :: c3 :: t) = true := by
  have hlen : t.length % 4 = 0 := by
    unfold dartB64valid at hv
    simp only [Bool.and_eq_true, decide_eq_true_eq] at hv
    exact hv.1
  have hlen4 : 4 ≤ t.length := by
    have : t.length ≠ 0 := fun hz => hne (List.eq_nil_of_length_eq_zero hz)
    omega
  have hbody : (t.dropLast.dropLast).all (fun c => (sixBit c).isSome) = true ∧
      (match t.drop (t.length - 2) with
       | [c1, c2] =>
         ((sixBit c1).isSome && (sixBit c2).isSome) ||
         ((sixBit c1).isSome && c2 = 61) ||
         (c1 = 61 && c2 = 61)
       | _ => false) = true := by
    unfold dartB64valid at hv
    simp only [Bool.and_eq_true, Bool.or_eq_true, decide_eq_true_eq] at hv
    rcases hv.2 with h | h
    · exact absurd h hne
    · exact h
  have hdl : t.dropLast ≠ [] := by
    have : t.dropLast.length = t.length - 1 := List.length_dropLast t
    intro hz
    rw [hz] at this
    simp at this
    omega
  have hbody_eq : (c0 :: c1 :: c2 :: c3 :: t).dropLast.dropLast =
      c0 :: c1 :: c2 :: c3 :: t.dropLast.dropLast := by
    rw [dropLast_cons_of_ne_nil c0 _ (by simp),
        dropLast_cons_of_ne_nil c1 _ (by simp),
        dropLast_cons_of_ne_nil c2 _ (by simp),
        dropLast_cons_of_ne_nil c3 _ hne,
        dropLast_cons_of_ne_nil c0 _ (by simp),
        dropLast_cons_of_ne_nil c1 _ (by simp),
        dropLast_cons_of_ne_nil c2 _ (by simp),
        dropLast_cons_of_ne_nil c3 _ hdl]
  have htail_eq : (c0 :: c1 :: c2 :: c3 :: t).drop
      ((c0 :: c1 :: c2 :: c3 :: t).length - 2) = t.drop (t.length - 2) := by
    have hL : (c0 :: c1 :: c2 :: c3 :: t).length - 2 = (t.length - 2) + 4 := by
      simp only [List.length_cons]
      omega
    rw [hL]
    have : ∀ k, (c0 :: c1 :: c2 :: c3 :: t).drop (k + 4) = t.drop k := by
      intro k
      have e : k + 4 = k + 1 + 1 + 1 + 1 := by omega
      rw [e, List.drop_succ_cons, List.drop_succ_cons, List.drop_succ_cons,
        List.drop_succ_cons]
    exact this _
  unfold dartB64valid
  simp only [Bool.and_eq_true, Bool.or_eq_true, decide_eq_true_eq]
  refine ⟨by simp only [List.length_cons]; omega, Or.inr ⟨?_, ?_⟩⟩
  · rw [hbody_eq]
    simp only [List.all_cons, h0, h1, h2, h3, Option.isSome_some, Bool.true_and]
    exact hbody.1
  · rw [htail_eq]
    exact hbody.2

theorem b64encode_valid (bs : Bytes) (hb : IsBytes bs) :
    dartB64valid (b64encode bs) = true := by
  induction bs using b64encode.induct with
  | case1 => decide
  | case2 a =>
    have ha : a < 256 := hb a (by simp)
    have h1 : sixBit (ringChar (a / 4)) = some (a / 4) := sixBit_ringChar _ (by omega)
    have h2 : sixBit (ringChar (a % 4 * 16)) = some (a % 4 * 16) :=
      sixBit_ringChar _ (by omega)
    simp only [b64encode, dartB64valid]
    simp [h1, h2]
  | case3 a b =>
    have ha : a < 256 := hb a (by simp)
    have hbb : b < 256 := hb b (by simp)
    have h1 : sixBit (ringChar (a / 4)) = some (a / 4) := sixBit_ringChar _ (by omega)
    have h2 : sixBit (ringChar (a % 4 * 16 + b / 16)) = some (a % 4 * 16 + b / 16) :=
      sixBit_ringChar _ (by omega)
    have h3 : sixBit (ringChar (b % 16 * 4)) = some (b % 16 * 4) :=
      sixBit_ringChar _ (by omega)
    simp only [b64encode, dartB64valid]
    simp [h1, h2, h3]
  | case4 a b c rest ih =>
    have ha : a < 256 := hb a (by simp)
    have hbb : b < 256 := hb b (by simp)
    have hcc : c < 256 := hb c (by simp)
    have hrest : IsBytes rest := fun x hx => hb x (by simp [hx])
    have h1 : sixBit (ringChar (a / 4)) = some (a / 4) := sixBit_ringChar _ (by omega)
    have h2 : sixBit (ringChar (a % 4 * 16 + b / 16)) = some (a % 4 * 16 + b / 16) :=
      sixBit_ringChar _ (by omega)
    have h3 : sixBit (ringChar (b % 16 * 4 + c / 64)) = some (b % 16 * 4 + c / 64) :=
      sixBit_ringChar _ (by omega)
    have h4 : sixBit (ringChar (c % 64)) = some (c % 64) := sixBit_ringChar _ (by omega)
    by_cases hr : rest = []
    · subst hr
      simp only [b64encode, dartB64valid]
      simp [h1, h2, h3, h4]
    · have hner : b64encode rest ≠ [] := by
        have := b64encode_len_ge rest hr
        intro hz
        rw [hz] at this
        simp at this
      simp only [b64encode]
      exact dartB64valid_prepend4 _ _ _ _ _ _ _ _ h1 h2 h3 h4 _ hner (ih hrest)

theorem dartB64_roundtrip (bs : Bytes) (hb : IsBytes bs) :
    dartB64decode (b64encode bs) = some bs := by
  unfold dartB64decode
  rw [b64encode_valid bs hb]
  simp only [if_true]
  exact congrArg some (jsB64_roundtrip bs hb)

/-! ### C7: obfuscation round trip through `keyDecrypt` -/

theorem decRot_cons (s s' i : Nat) (hi : i < 65) (t : Text) :
    decryptB64WithShift s' (rotRing s (ringChar i :: t)) =
      ringChar (((i + s) % 65 + 65 - s') % 65) ::
        decryptB64WithShift s' (rotRing s t) := by
  unfold decryptB64WithShift rotRing
  simp only [List.map_cons]
  rw [ringIdx_ringChar _ hi]
  dsimp only
  rw [ringIdx_ringChar _ (Nat.mod_lt _ (by norm_num))]

theorem allRing_decShift (s : Nat) (t : Text) (h : AllRing t) :
    AllRing (decryptB64WithShift s t) := by
  intro c hc
  rcases List.mem_map.mp hc with ⟨c0, hc0, heq⟩
  obtain ⟨i, hi, hc0eq⟩ := h c0 hc0
  subst hc0eq
  rw [ringIdx_ringChar _ hi] at heq
  exact ⟨(i + 65 - s) % 65, Nat.mod_lt _ (by norm_num), heq.symm⟩

theorem b64encode_head48 (tl : Bytes) (hb : IsBytes (48 :: tl)) :
    ∃ v1 rest, b64encode (48 :: tl) = ringChar 12 :: ringChar v1 :: rest ∧ v1 < 16 := by
  match tl with
  | [] => exact ⟨0, [61, 61], rfl, by omega⟩
  | [b] =>
    have hbb : b < 256 := hb b (by simp)
    refine ⟨b / 16, [ringChar (b % 16 * 4), 61], ?_, by omega⟩
    show b64encode [48, b] = _
    have e : 48 % 4 * 16 + b / 16 = b / 16 := by omega
    simp [b64encode, e]
  | b :: c :: tl3 =>
    have hbb : b < 256 := hb b (by simp)
    refine ⟨b / 16,
      ringChar (b % 16 * 4 + c / 64) :: ringChar (c % 64) :: b64encode tl3, ?_, by omega⟩
    show b64encode (48 :: b :: c :: tl3) = _
    have e : 48 % 4 * 16 + b / 16 = b / 16 := by omega
    have e2 : (48 : Nat) / 4 = 12 := by norm_num
    simp [b64encode, e, e2]

theorem jsTextAccept_false_of_head (clean : Text) (s' j0 : Nat) (u' : Text)
    (hu : decryptB64WithShift s' clean = ringChar j0 :: u')
    (hj0 : j0 < 64) (hne12 : j0 ≠ 12) : jsTextAccept clean s' = false := by
  unfold jsTextAccept
  rw [hu]
  apply decide_eq_false
  unfold jsB64decode
  rw [List.filterMap_cons, sixBit_ringChar _ hj0]
  exact packSextets_cons_head j0 _ hne12 (mem_filterMap_sixBit_lt _)

theorem dartTextAccept_false_of_head (clean : Text) (s' j0 : Nat) (u' : Text)
    (hu : decryptB64WithShift s' clean = ringChar j0 :: u')
    (hallring : AllRing (decryptB64WithShift s' clean))
    (hj0 : j0 < 64) (hne12 : j0 ≠ 12) : dartTextAccept clean s' = false := by
  unfold dartTextAccept
  rw [stripWs_eq_self _ (allRing_no_ws _ hallring)]
  match hdec : dartB64decode (decryptB64WithShift s' clean) with
  | none => rfl
  | some bs =>
    have hbs := dartB64decode_some_eq _ _ hdec
    rw [hu] at hbs
    rw [List.filterMap_cons, sixBit_ringChar _ hj0] at hbs
    dsimp only
    apply decide_eq_false
    rw [hbs]
    exact packSextets_cons_head j0 _ hne12 (mem_filterMap_sixBit_lt _)

theorem jsTextAccept_true_at_shift (tl : Bytes) (hb : IsBytes (48 :: tl)) (s : Nat)
    (hs : s ≤ 65) : jsTextAccept (rotRing s (b64encode (48 :: tl))) s = true := by
  unfold jsTextAccept
  rw [decShift_rotRing s hs, jsB64_roundtrip _ hb]
  simp

theorem dartTextAccept_true_at_shift (tl : Bytes) (hb : IsBytes (48 :: tl)) (s : Nat)
    (hs : s ≤ 65) : dartTextAccept (rotRing s (b64encode (48 :: tl))) s = true := by
  unfold dartTextAccept
  rw [decShift_rotRing s hs]
  rw [stripWs_eq_self _ (allRing_no_ws _ (allRing_b64encode _ hb))]
  rw [dartB64_roundtrip _ hb]
  simp

theorem firstTextHit_append_accept (accept : Text → Nat → Bool) (clean : Text)
    (l1 : List Nat) (s : Nat) (l2 : List Nat)
    (hrej : ∀ x ∈ l1, accept clean x = false) (hacc : accept clean s = true) :
    firstTextHit accept clean (l1 ++ s :: l2) =
      some (decryptB64WithShift s clean) := by
  induction l1 with
  | nil =>
    rw [List.nil_append]
    unfold firstTextHit
    rw [hacc]
    simp
  | cons x xs ih =>
    rw [List.cons_append]
    unfold firstTextHit
    rw [hrej x (List.mem_cons_self _ _)]
    simp only [Bool.false_eq_true, if_false]
    exact ih fun y hy => hrej y (List.mem_cons_of_mem _ hy)

theorem shiftRange_decomp (s : Nat) (h1 : 1 ≤ s) (h2 : s ≤ 20) :
    shiftRange = List.range' 1 (s - 1) ++ s :: List.range' (s + 1) (20 - s) := by
  have hs : s :: List.range' (s + 1) (20 - s) = List.range' s (21 - s) := by
    have e : 21 - s = (20 - s) + 1 := by omega
    rw [e]
    rfl
  rw [hs]
  have happ := List.range'_append 1 (s - 1) (21 - s) 1
  rw [show 1 + 1 * (s - 1) = s by omega] at happ
  rw [show 21 - s + (s - 1) = 20 by omega] at happ
  exact happ.symm

theorem stripWs_append (a b : Text) : stripWs (a ++ b) = stripWs a ++ stripWs b := by
  simp [stripWs]

theorem stripWs_chunk64Aux :
    ∀ fuel (t : Text), (∀ c ∈ t, isWsChar c = false) → t.length ≤ fuel →
      stripWs (chunk64Aux fuel t) = t := by
  intro fuel
  induction fuel with
  | zero =>
    intro t h hlen
    have ht : t = [] := List.eq_nil_of_length_eq_zero (by omega)
    subst ht
    rfl
  | succ f ih =>
    intro t h hlen
    cases t with
    | nil => rfl
    | cons c rest =>
      show stripWs ((c :: rest).take 64 ++ [10] ++ chunk64Aux f ((c :: rest).drop 64)) =
        c :: rest
      rw [stripWs_append, stripWs_append]
      have htake : stripWs ((c :: rest).take 64) = (c :: rest).take 64 :=
        stripWs_eq_self _ fun x hx => h x (List.take_subset _ _ hx)
      have h10 : stripWs [10] = [] := rfl
      have hdrop : stripWs (chunk64Aux f ((c :: rest).drop 64)) = (c :: rest).drop 64 := by
        refine ih _ (fun x hx => h x (List.drop_subset _ _ hx)) ?_
        simp only [List.length_drop, List.length_cons] at hlen ⊢
        omega
      rw [htake, h10, hdrop, List.append_nil, List.take_append_drop]

/-- Undoing the 64-character line chunking (whitespace removal, as the
PEM consumers do) recovers the chunked text exactly. -/
theorem stripWs_chunk64 (t : Text) (h : ∀ c ∈ t, isWsChar c = false) :
    stripWs (chunk64 t) = t :=
  stripWs_chunk64Aux t.length t h (le_refl _)

/-- Claim C7, amended: for every DER payload whose first byte is `0x30`
and every shift `s ∈ [1,20]`, rotating the payload's base64 text forward
by `s` on the 65-symbol ring and resolving through either `keyDecrypt`
recovers exactly the original payload: the returned PEM's body is the
payload's base64 text (chunked into 64-character lines, undone by
whitespace removal) and decodes to the payload.  The no-false-positive
clause holds for the Dart implementation only — the Node implementation
falls back to an unchecked shift-3 decode (see the counterexample). -/
theorem C7_obfuscation_roundtrip (tl : Bytes) (hb : IsBytes (48 :: tl)) (s : Nat)
    (h1 : 1 ≤ s) (h2 : s ≤ 20) :
    keyDecryptJs (rotRing s (b64encode (48 :: tl))) =
      .ok (pemPubBegin ++ [10] ++ chunk64 (b64encode (48 :: tl)) ++ pemPubEnd) ∧
    keyDecryptDart (rotRing s (b64encode (48 :: tl))) =
      .ok (pemPubBegin ++ [10] ++ chunk64 (b64encode (48 :: tl)) ++ pemPubEnd) ∧
    stripWs (chunk64 (b64encode (48 :: tl))) = b64encode (48 :: tl) ∧
    jsB64decode (b64encode (48 :: tl)) = 48 :: tl ∧
    dartB64decode (b64encode (48 :: tl)) = some (48 :: tl) := by
  have hAllR0 : AllRing (b64encode (48 :: tl)) := allRing_b64encode _ hb
  have hAllIn : AllRing (rotRing s (b64encode (48 :: tl))) := allRing_rotRing s _ hAllR0
  have hno45 : 45 ∉ rotRing s (b64encode (48 :: tl)) := allRing_no_45 _ hAllIn
  have hnows : ∀ c ∈ rotRing s (b64encode (48 :: tl)), isWsChar c = false :=
    allRing_no_ws _ hAllIn
  have ht0len : 4 ≤ (b64encode (48 :: tl)).length := b64encode_len_ge _ (by simp)
  have ht0ne : b64encode (48 :: tl) ≠ [] := by
    intro hz
    rw [hz] at ht0len
    simp at ht0len
  have hinne : rotRing s (b64encode (48 :: tl)) ≠ [] := by
    intro hz
    have := congrArg List.length hz
    simp only [rotRing, List.length_map, List.length_nil] at this
    omega
  have htrim : trimText (rotRing s (b64encode (48 :: tl))) =
      rotRing s (b64encode (48 :: tl)) := trimText_eq_self _ hnows
  have hstrip : stripWs (rotRing s (b64encode (48 :: tl))) =
      rotRing s (b64encode (48 :: tl)) := stripWs_eq_self _ hnows
  have hm1 : containsSub decoyPubBegin (rotRing s (b64encode (48 :: tl))) = false :=
    containsSub_eq_false_of_head 45 _ _ hno45
  have hm2 : containsSub decoyPrivBegin (rotRing s (b64encode (48 :: tl))) = false :=
    containsSub_eq_false_of_head 45 _ _ hno45
  have hm3 : containsSub strBegin (rotRing s (b64encode (48 :: tl))) = false :=
    containsSub_eq_false_of_head 45 _ _ hno45
  have hext : extractKey (rotRing s (b64encode (48 :: tl))) =
      (false, false, rotRing s (b64encode (48 :: tl))) := by
    unfold extractKey
    simp [hm1, hm2, hm3, htrim]
  obtain ⟨v1, rest, henc, hv1⟩ := b64encode_head48 tl hb
  -- rejection of any shift x whose offset from s is non-trivial
  have hmod : (12 + s) % 65 = 12 + s := Nat.mod_eq_of_lt (by omega)
  have hu : ∀ x, decryptB64WithShift x (rotRing s (b64encode (48 :: tl))) =
      ringChar (((12 + s) % 65 + 65 - x) % 65) ::
        decryptB64WithShift x (rotRing s (ringChar v1 :: rest)) := by
    intro x
    rw [henc]
    exact decRot_cons s x 12 (by omega) _
  have hrej_js : ∀ x, 1 ≤ x → x < s →
      jsTextAccept (rotRing s (b64encode (48 :: tl))) x = false := by
    intro x hx1 hxs
    refine jsTextAccept_false_of_head _ x _ _ (hu x) ?_ ?_ <;> rw [hmod] <;> omega
  have hrej_dart : ∀ x, 1 ≤ x → x < s →
      dartTextAccept (rotRing s (b64encode (48 :: tl))) x = false := by
    intro x hx1 hxs
    refine dartTextAccept_false_of_head _ x _ _ (hu x)
      (allRing_decShift _ _ hAllIn) ?_ ?_ <;> rw [hmod] <;> omega
  have hrej_dart7 : s ≠ 7 →
      dartTextAccept (rotRing s (b64encode (48 :: tl))) 7 = false := by
    intro hs7
    refine dartTextAccept_false_of_head _ 7 _ _ (hu 7)
      (allRing_decShift _ _ hAllIn) ?_ ?_ <;> rw [hmod] <;> omega
  have hacc_js : jsTextAccept (rotRing s (b64encode (48 :: tl))) s = true :=
    jsTextAccept_true_at_shift tl hb s (by omega)
  have hacc_dart : dartTextAccept (rotRing s (b64encode (48 :: tl))) s = true :=
    dartTextAccept_true_at_shift tl hb s (by omega)
  have hdec_s : decryptB64WithShift s (rotRing s (b64encode (48 :: tl))) =
      b64encode (48 :: tl) := decShift_rotRing s (by omega) _
  have hhit_js : firstTextHit jsTextAccept (rotRing s (b64encode (48 :: tl)))
      shiftRange = some (b64encode (48 :: tl)) := by
    rw [shiftRange_decomp s h1 h2, firstTextHit_append_accept _ _ _ _ _
      (fun x hx => by
        have hm := List.mem_range'_1.mp hx
        exact hrej_js x (by omega) (by omega)) hacc_js, hdec_s]
  have hhit_dart : firstTextHit dartTextAccept (rotRing s (b64encode (48 :: tl)))
      dartShiftOrder = some (b64encode (48 :: tl)) := by
    unfold dartShiftOrder
    by_cases hs7 : s = 7
    · subst hs7
      unfold firstTextHit
      rw [hacc_dart, if_pos rfl, hdec_s]
    · unfold firstTextHit
      rw [hrej_dart7 hs7]
      simp only [Bool.false_eq_true, if_false]
      rw [shiftRange_decomp s h1 h2, List.filter_append]
      rw [show List.filter (fun x => decide (x ≠ 7)) (s :: List.range' (s + 1) (20 - s)) =
        s :: List.filter (fun x => decide (x ≠ 7)) (List.range' (s + 1) (20 - s)) from by
          rw [List.filter_cons_of_pos (by simp [hs7])]]
      rw [firstTextHit_append_accept _ _ _ _ _
        (fun x hx => by
          have hm := List.mem_range'_1.mp (List.mem_of_mem_filter hx)
          exact hrej_dart x (by omega) (by omega)) hacc_dart, hdec_s]
  have hstrip0 : stripWs (b64encode (48 :: tl)) = b64encode (48 :: tl) :=
    stripWs_eq_self _ (allRing_no_ws _ hAllR0)
  refine ⟨?_, ?_, stripWs_chunk64 _ (allRing_no_ws _ hAllR0),
    jsB64_roundtrip _ hb, dartB64_roundtrip _ hb⟩
  · unfold keyDecryptJs
    rw [if_neg hinne, hext]
    dsimp only
    rw [if_neg hinne, hstrip, hhit_js]
    dsimp only
    rw [if_neg ht0ne]
    unfold wrapKey
    rw [hstrip0]
    simp
  · unfold keyDecryptDart
    rw [if_neg hinne, hext]
    dsimp only
    rw [if_neg hinne, hstrip, hhit_dart]
    dsimp only
    rw [if_neg ht0ne]
    unfold wrapKey
    rw [hstrip0]
    simp

theorem C7_witness :
    keyDecryptJs (rotRing 2 (b64encode (48 :: [1]))) =
      .ok (pemPubBegin ++ [10] ++ chunk64 (b64encode (48 :: [1])) ++ pemPubEnd) ∧
    keyDecryptDart (rotRing 2 (b64encode (48 :: [1]))) =
      .ok (pemPubBegin ++ [10] ++ chunk64 (b64encode (48 :: [1])) ++ pemPubEnd) ∧
    stripWs (chunk64 (b64encode (48 :: [1]))) = b64encode (48 :: [1]) ∧
    jsB64decode (b64encode (48 :: [1])) = 48 :: [1] ∧
    dartB64decode (b64encode (48 :: [1])) = some (48 :: [1]) :=
  C7_obfuscation_roundtrip [1] (by decide) 2 (by decide) (by decide)

/-- Counterexample to the no-false-positive clause of claim C7 as stated:
for the body `"EEEE"` no shift in `[1,20]` passes the `0x30` oracle under
any decoder, yet the Node `keyDecrypt` resolves it — returning the
unvalidated shift-3 fallback — instead of failing. -/
theorem C7_counterexample :
    (∀ x ∈ shiftRange, jsTextAccept [69, 69, 69, 69] x = false) ∧
    (∀ x ∈ shiftRange, dartTextAccept [69, 69, 69, 69] x = false) ∧
    (∀ x ∈ shiftRange, byteAccept (jsB64decode [69, 69, 69, 69]) x = false) ∧
    keyDecryptJs [69, 69, 69, 69] =
      .ok (wrapKey false false (decryptB64WithShift 3 [69, 69, 69, 69])) := by
  decide

/-! ### C1: envelope round trip — UTF-8 and percent-encoding layers -/

theorem utf8Cont_true (b : Nat) (h1 : 128 ≤ b) (h2 : b < 192) : utf8Cont b = true := by
  simp [utf8Cont]
  omega

theorem utf8DecodeOne_charUtf8 (c : Nat) (hc : c < 1114112) (rest : Bytes) :
    utf8DecodeOne (charUtf8 c ++ rest) = some (c, rest) := by
  by_cases h1 : c < 128
  · rw [show charUtf8 c = [c] from by unfold charUtf8; rw [if_pos h1]]
    show utf8DecodeOne (c :: rest) = _
    unfold utf8DecodeOne
    dsimp only
    rw [if_pos h1]
  · by_cases h2 : c < 2048
    · rw [show charUtf8 c = [192 + c / 64, 128 + c % 64] from by
        unfold charUtf8; rw [if_neg h1, if_pos h2]]
      show utf8DecodeOne ((192 + c / 64) :: (128 + c % 64) :: rest) = _
      unfold utf8DecodeOne
      dsimp only
      rw [if_neg (by omega), if_neg (by omega), if_pos (by omega)]
      rw [utf8Cont_true _ (by omega) (by omega), if_pos rfl]
      have e : (192 + c / 64 - 192) * 64 + (128 + c % 64 - 128) = c := by omega
      rw [e]
    · by_cases h3 : c < 65536
      · rw [show charUtf8 c = [224 + c / 4096, 128 + c / 64 % 64, 128 + c % 64] from by
          unfold charUtf8; rw [if_neg h1, if_neg h2, if_pos h3]]
        show utf8DecodeOne
          ((224 + c / 4096) :: (128 + c / 64 % 64) :: (128 + c % 64) :: rest) = _
        unfold utf8DecodeOne
        dsimp only
        rw [if_neg (by omega), if_neg (by omega), if_neg (by omega), if_pos (by omega)]
        rw [utf8Cont_true _ (by omega) (by omega), utf8Cont_true _ (by omega) (by omega)]
        rw [show (true && true) = true from rfl, if_pos rfl]
        have e : (224 + c / 4096 - 224) * 4096 + (128 + c / 64 % 64 - 128) * 64 +
            (128 + c % 64 - 128) = c := by omega
        rw [e]
      · rw [show charUtf8 c =
            [240 + c / 262144, 128 + c / 4096 % 64, 128 + c / 64 % 64, 128 + c % 64] from by
          unfold charUtf8; rw [if_neg h1, if_neg h2, if_neg h3]]
        show utf8DecodeOne ((240 + c / 262144) :: (128 + c / 4096 % 64) ::
          (128 + c / 64 % 64) :: (128 + c % 64) :: rest) = _
        unfold utf8DecodeOne
        dsimp only
        rw [if_neg (by omega), if_neg (by omega), if_neg (by omega), if_neg (by omega),
          if_pos (by omega)]
        rw [utf8Cont_true _ (by omega) (by omega), utf8Cont_true _ (by omega) (by omega),
          utf8Cont_true _ (by omega) (by omega)]
        rw [show (true && true && true) = true from rfl, if_pos rfl]
        have e : (240 + c / 262144 - 240) * 262144 + (128 + c / 4096 % 64 - 128) * 4096 +
            (128 + c / 64 % 64 - 128) * 64 + (128 + c % 64 - 128) = c := by omega
        rw [e]

set_option maxRecDepth 4000 in
theorem utf8DecodeOne_consume (bs : Bytes) (c : Nat) (rest : Bytes)
    (h : utf8DecodeOne bs = some (c, rest)) : rest.length < bs.length := by
  unfold utf8DecodeOne at h
  repeat' split at h
  all_goals (cases h <;> (subst_vars; simp only [List.length_cons]; omega))

theorem utf8DecodeAux_fuel : ∀ f1, ∀ (bs : Bytes), ∀ f2, bs.length ≤ f1 →
    bs.length ≤ f2 → utf8DecodeAux f1 bs = utf8DecodeAux f2 bs := by
  intro f1
  induction f1 with
  | zero =>
    intro bs f2 hl1 _
    have hbs : bs = [] := List.eq_nil_of_length_eq_zero (by omega)
    subst hbs
    cases f2 <;> rfl
  | succ f ih =>
    intro bs f2 hl1 hl2
    cases bs with
    | nil => cases f2 <;> rfl
    | cons b tail =>
      cases f2 with
      | zero => simp at hl2
      | succ f2' =>
        show (match utf8DecodeOne (b :: tail) with
          | some (c, rest) => (utf8DecodeAux f rest).map (c :: ·)
          | none => none) =
          (match utf8DecodeOne (b :: tail) with
          | some (c, rest) => (utf8DecodeAux f2' rest).map (c :: ·)
          | none => none)
        match hone : utf8DecodeOne (b :: tail) with
        | none => rfl
        | some (c, rest) =>
          have hcons := utf8DecodeOne_consume _ _ _ hone
          simp only [List.length_cons] at hcons hl1 hl2
          dsimp only
          rw [ih rest f2' (by omega) (by omega)]

theorem utf8Decode_step (bs : Bytes) (c : Nat) (rest : Bytes)
    (h : utf8DecodeOne bs = some (c, rest)) :
    utf8Decode bs = (utf8Decode rest).map (c :: ·) := by
  match bs with
  | [] => cases h
  | b :: tail =>
    unfold utf8Decode
    show (match utf8DecodeOne (b :: tail) with
      | some (c, rest) => (utf8DecodeAux tail.length rest).map (c :: ·)
      | none => none) = _
    rw [h]
    have hcons := utf8DecodeOne_consume _ _ _ h
    simp only [List.length_cons] at hcons
    dsimp only
    rw [utf8DecodeAux_fuel tail.length rest rest.length (by omega) (by omega)]

theorem utf8_roundtrip (t : Text) (ht : IsText t) :
    utf8Decode (utf8Bytes t) = some t := by
  induction t with
  | nil => rfl
  | cons c rest ih =>
    have hc : c < 1114112 := ht c (List.mem_cons_self _ _)
    have hrest : IsText rest := fun x hx => ht x (List.mem_cons_of_mem _ hx)
    show utf8Decode (charUtf8 c ++ utf8Bytes rest) = _
    rw [utf8Decode_step _ _ _ (utf8DecodeOne_charUtf8 c hc _), ih hrest]
    rfl

theorem charUtf8_isBytes (c : Nat) (hc : c < 1114112) : IsBytes (charUtf8 c) := by
  unfold charUtf8
  split
  · intro b hb
    simp at hb
    omega
  · split
    · intro b hb
      simp at hb
      rcases hb with h | h <;> omega
    · split
      · intro b hb
        simp at hb
        rcases hb with h | h | h <;> omega
      · intro b hb
        simp at hb
        rcases hb with h | h | h | h <;> omega

theorem utf8Bytes_isBytes (t : Text) (ht : IsText t) : IsBytes (utf8Bytes t) := by
  intro b hb
  rcases List.mem_flatMap.mp hb with ⟨c, hc, hbc⟩
  exact charUtf8_isBytes c (ht c hc) b hbc

theorem hexVal_hexDigit (n : Nat) (h : n < 16) : hexVal (hexDigit n) = some n := by
  unfold hexVal hexDigit
  split
  · rw [if_pos (by omega)]
    congr 1
    omega
  · rw [if_neg (by omega), if_pos (by omega)]
    congr 1
    omega

theorem pctDecodeBytes_pct (b : Nat) (hb : b < 256) (t : Text) :
    pctDecodeBytes (37 :: hexDigit (b / 16) :: hexDigit (b % 16) :: t) =
      (pctDecodeBytes t).map (b :: ·) := by
  have e : b / 16 * 16 + b % 16 = b := by omega
  conv_lhs => unfold pctDecodeBytes
  dsimp only
  rw [hexVal_hexDigit _ (by omega), hexVal_hexDigit _ (by omega)]
  cases hd : pctDecodeBytes t with
  | none => rfl
  | some bs => simp [Option.bind, e]

theorem pctDecodeBytes_plain (c : Nat) (h37 : c ≠ 37) (t : Text) :
    pctDecodeBytes (c :: t) = (pctDecodeBytes t).map (charUtf8 c ++ ·) := by
  conv_lhs => unfold pctDecodeBytes
  split
  · rename_i heq
    exact absurd heq (by simp)
  · rename_i rest heq
    exact absurd (List.head_eq_of_cons_eq heq) h37
  · rename_i c' rest _ _ heq
    rw [List.head_eq_of_cons_eq heq, List.tail_eq_of_cons_eq heq]

theorem pctDecodeBytes_escapes (bs : Bytes) (hbs : IsBytes bs) (t : Text) :
    pctDecodeBytes
        ((bs.flatMap fun b => [37, hexDigit (b / 16), hexDigit (b % 16)]) ++ t) =
      (pctDecodeBytes t).map (bs ++ ·) := by
  induction bs with
  | nil =>
    simp only [List.flatMap_nil, List.nil_append]
    cases pctDecodeBytes t <;> rfl
  | cons b rest ih =>
    have hb : b < 256 := hbs b (List.mem_cons_self _ _)
    have hrest : IsBytes rest := fun x hx => hbs x (List.mem_cons_of_mem _ hx)
    simp only [List.flatMap_cons, List.append_assoc, List.cons_append, List.nil_append]
    rw [pctDecodeBytes_pct b hb, ih hrest]
    cases pctDecodeBytes t <;> rfl

theorem pctDecode_uriEncode (t : Text) (ht : IsText t) :
    pctDecodeBytes (uriEncode t) = some (utf8Bytes t) := by
  induction t with
  | nil => rfl
  | cons c rest ih =>
    have hc : c < 1114112 := ht c (List.mem_cons_self _ _)
    have hrest : IsText rest := fun x hx => ht x (List.mem_cons_of_mem _ hx)
    show pctDecodeBytes ((if uriUnreserved c then [c]
        else (charUtf8 c).flatMap fun b => [37, hexDigit (b / 16), hexDigit (b % 16)]) ++
        uriEncode rest) = _
    by_cases hu : uriUnreserved c = true
    · rw [if_pos hu]
      have h37 : c ≠ 37 := by
        intro he
        subst he
        exact absurd hu (by decide)
      rw [show ([c] ++ uriEncode rest) = c :: uriEncode rest from rfl,
        pctDecodeBytes_plain c h37, ih hrest]
      rfl
    · rw [if_neg hu, pctDecodeBytes_escapes (charUtf8 c) (charUtf8_isBytes c hc), ih hrest]
      rfl

theorem uriEncode_isText (t : Text) (ht : IsText t) : IsText (uriEncode t) := by
  intro x hx
  rcases List.mem_flatMap.mp hx with ⟨c, hc, hxc⟩
  by_cases hu : uriUnreserved c = true
  · rw [if_pos hu] at hxc
    simp at hxc
    subst hxc
    simp [uriUnreserved] at hu
    rcases hu with h | h | h | h | h | h | h | h | h | h | h <;> omega
  · rw [if_neg hu] at hxc
    rcases List.mem_flatMap.mp hxc with ⟨b, hb, hxb⟩
    have hbb : b < 256 := charUtf8_isBytes c (ht c hc) b hb
    simp at hxb
    rcases hxb with h | h | h <;> subst h
    · omega
    · unfold hexDigit
      split <;> omega
    · unfold hexDigit
      split <;> omega

theorem uriDecode_uriEncode (t : Text) (ht : IsText t) :
    uriDecode (uriEncode t) = some t := by
  unfold uriDecode
  rw [pctDecode_uriEncode t ht]
  exact utf8_roundtrip t ht

theorem pkcs7pad_length (bs : Bytes) :
    (pkcs7pad bs).length = bs.length + (16 - bs.length % 16) := by
  unfold pkcs7pad
  simp

theorem pkcs7pad_mod (bs : Bytes) : (pkcs7pad bs).length % 16 = 0 := by
  rw [pkcs7pad_length]
  omega

theorem pkcs7pad_ne_nil (bs : Bytes) : pkcs7pad bs ≠ [] := by
  intro h
  have hl := congrArg List.length h
  rw [pkcs7pad_length] at hl
  simp at hl
  omega

theorem pkcs7pad_isBytes (bs : Bytes) (hb : IsBytes bs) : IsBytes (pkcs7pad bs) := by
  intro x hx
  have hx2 : x ∈ bs ++ List.replicate (16 - bs.length % 16) (16 - bs.length % 16) := hx
  rcases List.mem_append.mp hx2 with h | h
  · exact hb x h
  · have := List.eq_of_mem_replicate h
    subst this
    omega

theorem pkcs7_roundtrip (bs : Bytes) : pkcs7unpad (pkcs7pad bs) = some bs := by
  have hp1 : 1 ≤ 16 - bs.length % 16 := by omega
  have hp2 : 16 - bs.length % 16 ≤ 16 := by omega
  unfold pkcs7pad pkcs7unpad
  dsimp only
  set p := 16 - bs.length % 16 with hp
  have hrep : List.replicate p p = List.replicate (p - 1) p ++ [p] := by
    obtain ⟨q, hq⟩ : ∃ q, p = q + 1 := ⟨p - 1, by omega⟩
    rw [hq]
    simp [List.replicate_succ']
  have hlast : (bs ++ List.replicate p p).getLast? = some p := by
    rw [hrep, ← List.append_assoc]
    exact List.getLast?_concat _
  rw [hlast]
  dsimp only
  have hlen : (bs ++ List.replicate p p).length = bs.length + p := by
    simp
  rw [hlen, if_neg (by omega), Nat.add_sub_cancel, List.drop_left, List.take_left]
  rw [if_pos (by
    simp only [List.all_eq_true, decide_eq_true_eq]
    intro x hx
    exact List.eq_of_mem_replicate hx)]

theorem chunks16Aux_fuel : ∀ f1, ∀ (bs : Bytes), ∀ f2, bs.length ≤ f1 →
    bs.length ≤ f2 → chunks16Aux f1 bs = chunks16Aux f2 bs := by
  intro f1
  induction f1 with
  | zero =>
    intro bs f2 hl1 _
    have hbs : bs = [] := List.eq_nil_of_length_eq_zero (by omega)
    subst hbs
    cases f2 <;> rfl
  | succ f ih =>
    intro bs f2 hl1 hl2
    cases bs with
    | nil => cases f2 <;> rfl
    | cons b tail =>
      cases f2 with
      | zero => simp at hl2
      | succ f2' =>
        show (b :: tail).take 16 :: chunks16Aux f ((b :: tail).drop 16) =
          (b :: tail).take 16 :: chunks16Aux f2' ((b :: tail).drop 16)
        congr 1
        apply ih
        · simp only [List.length_drop, List.length_cons] at *
          omega
        · simp only [List.length_drop, List.length_cons] at *
          omega

theorem chunks16_cons (bs : Bytes) (hne : bs ≠ []) :
    chunks16 bs = bs.take 16 :: chunks16 (bs.drop 16) := by
  cases bs with
  | nil => exact absurd rfl hne
  | cons b tl =>
    show (b :: tl).take 16 :: chunks16Aux tl.length ((b :: tl).drop 16) = _
    congr 1
    apply chunks16Aux_fuel
    · simp only [List.length_drop, List.length_cons]
      omega
    · exact le_rfl

theorem flatten_chunks16Aux : ∀ f, ∀ (bs : Bytes), bs.length ≤ f →
    (chunks16Aux f bs).flatten = bs := by
  intro f
  induction f with
  | zero =>
    intro bs hl
    have hbs : bs = [] := List.eq_nil_of_length_eq_zero (by omega)
    subst hbs
    rfl
  | succ f ih =>
    intro bs hl
    cases bs with
    | nil => rfl
    | cons b tail =>
      show ((b :: tail).take 16 ++ (chunks16Aux f ((b :: tail).drop 16)).flatten) = _
      rw [ih _ (by simp only [List.length_drop, List.length_cons] at *; omega)]
      exact List.take_append_drop 16 (b :: tail)

theorem flatten_chunks16 (bs : Bytes) : (chunks16 bs).flatten = bs :=
  flatten_chunks16Aux bs.length bs le_rfl

theorem chunks16Aux_len16 : ∀ f, ∀ (bs : Bytes), bs.length ≤ f → bs.length % 16 = 0 →
    ∀ b ∈ chunks16Aux f bs, b.length = 16 := by
  intro f
  induction f with
  | zero =>
    intro bs hl _
    have hbs : bs = [] := List.eq_nil_of_length_eq_zero (by omega)
    subst hbs
    intro b hb
    cases hb
  | succ f ih =>
    intro bs hl hmod b hb
    cases bs with
    | nil => cases hb
    | cons x tail =>
      rcases List.mem_cons.mp hb with h | h
      · subst h
        simp only [List.length_take, List.length_cons]
        have : (x :: tail).length % 16 = 0 := hmod
        simp only [List.length_cons] at this
        omega
      · apply ih ((x :: tail).drop 16) _ _ b h
        · simp only [List.length_drop, List.length_cons] at *
          omega
        · simp only [List.length_drop, List.length_cons] at *
          omega

theorem chunks16_len16 (bs : Bytes) (hmod : bs.length % 16 = 0) :
    ∀ b ∈ chunks16 bs, b.length = 16 :=
  chunks16Aux_len16 bs.length bs le_rfl hmod

theorem chunks16_isBytes (bs : Bytes) (hb : IsBytes bs) :
    ∀ blk ∈ chunks16 bs, IsBytes blk := by
  intro blk hblk x hx
  apply hb
  rw [← flatten_chunks16 bs]
  exact List.mem_flatten.mpr ⟨blk, hblk, hx⟩

theorem chunks16_flatten (L : List Bytes) (h : ∀ b ∈ L, b.length = 16) :
    chunks16 L.flatten = L := by
  induction L with
  | nil => rfl
  | cons b L2 ih =>
    have hb : b.length = 16 := h b (List.mem_cons_self _ _)
    have hL2 : ∀ x ∈ L2, x.length = 16 := fun x hx => h x (List.mem_cons_of_mem _ hx)
    show chunks16 (b ++ L2.flatten) = b :: L2
    have hne : b ++ L2.flatten ≠ [] := by
      intro he
      have := congrArg List.length he
      simp [hb] at this
    rw [chunks16_cons _ hne, List.take_left' hb, List.drop_left' hb, ih hL2]

theorem flatten_len16 (L : List Bytes) (h : ∀ b ∈ L, b.length = 16) :
    L.flatten.length = 16 * L.length := by
  induction L with
  | nil => rfl
  | cons b L2 ih =>
    have hb : b.length = 16 := h b (List.mem_cons_self _ _)
    have hL2 : ∀ x ∈ L2, x.length = 16 := fun x hx => h x (List.mem_cons_of_mem _ hx)
    simp only [List.flatten_cons, List.length_append, List.length_cons, hb, ih hL2]
    ring

theorem xorBytes_length (a b : Bytes) : (xorBytes a b).length = min a.length b.length := by
  simp [xorBytes]

theorem xorBytes_cancel (a b : Bytes) (h : a.length = b.length) :
    xorBytes a (xorBytes a b) = b := by
  induction a generalizing b with
  | nil =>
    cases b with
    | nil => rfl
    | cons y ys => simp at h
  | cons x xs ih =>
    cases b with
    | nil => simp at h
    | cons y ys =>
      show (x ^^^ (x ^^^ y)) :: xorBytes xs (xorBytes xs ys) = y :: ys
      simp only [List.length_cons] at h
      rw [ih ys (by omega)]
      congr 1
      rw [← Nat.xor_assoc, Nat.xor_self, Nat.zero_xor]

theorem xorBytes_isBytes (a : Bytes) : ∀ (b : Bytes), IsBytes a → IsBytes b →
    IsBytes (xorBytes a b) := by
  induction a with
  | nil =>
    intro b _ _ x hx
    cases hx
  | cons x xs ih =>
    intro b ha hb
    cases b with
    | nil =>
      intro v hv
      cases hv
    | cons y ys =>
      intro v hv
      rcases List.mem_cons.mp hv with h | h
      · subst h
        have hx : x < 256 := ha x (List.mem_cons_self _ _)
        have hy : y < 256 := hb y (List.mem_cons_self _ _)
        have hxy : x ^^^ y < 2 ^ 8 :=
          Nat.xor_lt_two_pow (lt_of_lt_of_le hx (by norm_num))
            (lt_of_lt_of_le hy (by norm_num))
        exact lt_of_lt_of_le hxy (by norm_num)
      · exact ih ys (fun z hz => ha z (List.mem_cons_of_mem _ hz))
          (fun z hz => hb z (List.mem_cons_of_mem _ hz)) v h

theorem cbcEncBlocks_len16 (B : BlockSpec) (k : Bytes) :
    ∀ (L : List Bytes) (prev : Bytes), prev.length = 16 → (∀ b ∈ L, b.length = 16) →
    ∀ c ∈ cbcEncBlocks B k prev L, c.length = 16 := by
  intro L
  induction L with
  | nil =>
    intro prev _ _ c hc
    cases hc
  | cons b bs ih =>
    intro prev hprev hL c hc
    have hb : b.length = 16 := hL b (List.mem_cons_self _ _)
    have hxor : (xorBytes prev b).length = 16 := by
      rw [xorBytes_length, hprev, hb]
      omega
    rcases List.mem_cons.mp hc with h | h
    · subst h
      exact B.enc_len k _ hxor
    · exact ih (B.enc k (xorBytes prev b)) (B.enc_len k _ hxor)
        (fun x hx => hL x (List.mem_cons_of_mem _ hx)) c h

theorem cbcEncBlocks_isBytes (B : BlockSpec) (k : Bytes) :
    ∀ (L : List Bytes) (prev : Bytes), prev.length = 16 → IsBytes prev →
    (∀ b ∈ L, b.length = 16 ∧ IsBytes b) →
    ∀ c ∈ cbcEncBlocks B k prev L, IsBytes c := by
  intro L
  induction L with
  | nil =>
    intro prev _ _ _ c hc
    cases hc
  | cons b bs ih =>
    intro prev hprev hprevB hL c hc
    obtain ⟨hb, hbB⟩ := hL b (List.mem_cons_self _ _)
    have hxor : (xorBytes prev b).length = 16 := by
      rw [xorBytes_length, hprev, hb]
      omega
    have hxorB : IsBytes (xorBytes prev b) := xorBytes_isBytes prev b hprevB hbB
    rcases List.mem_cons.mp hc with h | h
    · subst h
      exact B.enc_bytes k _ hxor hxorB
    · exact ih (B.enc k (xorBytes prev b)) (B.enc_len k _ hxor)
        (B.enc_bytes k _ hxor hxorB)
        (fun x hx => hL x (List.mem_cons_of_mem _ hx)) c h

theorem cbcEncBlocks_length (B : BlockSpec) (k : Bytes) :
    ∀ (L : List Bytes) (prev : Bytes), (cbcEncBlocks B k prev L).length = L.length := by
  intro L
  induction L with
  | nil => intro prev; rfl
  | cons b bs ih =>
    intro prev
    show (cbcEncBlocks B k prev (b :: bs)).length = bs.length + 1
    show (_ :: cbcEncBlocks B k _ bs).length = bs.length + 1
    simp only [List.length_cons, ih]

theorem cbcDec_cbcEnc (B : BlockSpec) (k : Bytes) :
    ∀ (L : List Bytes) (prev : Bytes), prev.length = 16 → (∀ b ∈ L, b.length = 16) →
    cbcDecBlocks B k prev (cbcEncBlocks B k prev L) = L := by
  intro L
  induction L with
  | nil => intro prev _ _; rfl
  | cons b bs ih =>
    intro prev hprev hL
    have hb : b.length = 16 := hL b (List.mem_cons_self _ _)
    have hxor : (xorBytes prev b).length = 16 := by
      rw [xorBytes_length, hprev, hb]
      omega
    show xorBytes prev (B.dec k (B.enc k (xorBytes prev b))) ::
        cbcDecBlocks B k (B.enc k (xorBytes prev b))
          (cbcEncBlocks B k (B.enc k (xorBytes prev b)) bs) = b :: bs
    rw [B.dec_enc k _ hxor, xorBytes_cancel prev b (by omega),
      ih (B.enc k (xorBytes prev b)) (B.enc_len k _ hxor)
        (fun x hx => hL x (List.mem_cons_of_mem _ hx))]

theorem cbc_roundtrip (B : BlockSpec) (k iv pt : Bytes) (hiv : iv.length = 16)
    (hpt : pt.length % 16 = 0) :
    cbcDecrypt B k iv (cbcEncrypt B k iv pt) = pt := by
  unfold cbcEncrypt cbcDecrypt
  rw [chunks16_flatten _ (cbcEncBlocks_len16 B k (chunks16 pt) iv hiv (chunks16_len16 pt hpt)),
    cbcDec_cbcEnc B k (chunks16 pt) iv hiv (chunks16_len16 pt hpt), flatten_chunks16]

theorem cbcEncrypt_mod16 (B : BlockSpec) (k iv pt : Bytes) (hiv : iv.length = 16)
    (hpt : pt.length % 16 = 0) : (cbcEncrypt B k iv pt).length % 16 = 0 := by
  unfold cbcEncrypt
  rw [flatten_len16 _ (cbcEncBlocks_len16 B k (chunks16 pt) iv hiv (chunks16_len16 pt hpt))]
  omega

theorem cbcEncrypt_ne_nil (B : BlockSpec) (k iv pt : Bytes) (hiv : iv.length = 16)
    (hpt : pt.length % 16 = 0) (hne : pt ≠ []) : cbcEncrypt B k iv pt ≠ [] := by
  intro h
  have hlen := congrArg List.length h
  unfold cbcEncrypt at hlen
  rw [flatten_len16 _ (cbcEncBlocks_len16 B k (chunks16 pt) iv hiv (chunks16_len16 pt hpt)),
    cbcEncBlocks_length] at hlen
  rw [chunks16_cons pt hne] at hlen
  simp at hlen

theorem cbcEncrypt_isBytes (B : BlockSpec) (k iv pt : Bytes) (hiv : iv.length = 16)
    (hivB : IsBytes iv) (hpt : pt.length % 16 = 0) (hptB : IsBytes pt) :
    IsBytes (cbcEncrypt B k iv pt) := by
  intro x hx
  unfold cbcEncrypt at hx
  rcases List.mem_flatten.mp hx with ⟨c, hc, hxc⟩
  exact cbcEncBlocks_isBytes B k (chunks16 pt) iv hiv hivB
    (fun b hb => ⟨chunks16_len16 pt hpt b hb, chunks16_isBytes pt hptB b hb⟩) c hc x hxc

theorem aes_roundtrip (B : BlockSpec) (k iv m : Bytes) (hk : k.length = 32)
    (hiv : iv.length = 16) (hivB : IsBytes iv) (hm : IsBytes m) :
    decryptUsingAesKeyJs B k iv (b64encode (cbcEncrypt B k iv (pkcs7pad m))) = .ok m := by
  have hmod : (pkcs7pad m).length % 16 = 0 := pkcs7pad_mod m
  have hctB : IsBytes (cbcEncrypt B k iv (pkcs7pad m)) :=
    cbcEncrypt_isBytes B k iv _ hiv hivB hmod (pkcs7pad_isBytes m hm)
  have hctmod : (cbcEncrypt B k iv (pkcs7pad m)).length % 16 = 0 :=
    cbcEncrypt_mod16 B k iv _ hiv hmod
  have hctne : cbcEncrypt B k iv (pkcs7pad m) ≠ [] :=
    cbcEncrypt_ne_nil B k iv _ hiv hmod (pkcs7pad_ne_nil m)
  unfold decryptUsingAesKeyJs
  rw [jsB64_roundtrip _ hctB]
  dsimp only
  rw [if_neg (by simp [hk, hiv]), if_neg (by simp [hctne, hctmod]),
    cbc_roundtrip B k iv _ hiv hmod, pkcs7_roundtrip]

theorem oaep_iv_roundtrip (O : OaepSpec) (h : OaepHash) (pub : RsaPub) (sk : RsaPriv)
    (iv : Bytes) (hivB : IsBytes iv) (hmatch : O.Matching pub sk) :
    decryptUsingPrivateKeyJs O h sk (b64encode (O.enc h pub iv)) = .ok iv := by
  unfold decryptUsingPrivateKeyJs
  rw [jsB64_roundtrip _ (O.enc_bytes h pub iv hivB), O.dec_enc h pub sk iv hmatch]

/-- C1: the spec's round-trip law `open(seal(p, pub, sym), priv, sym) == p` holds
for the hash-consistent pair of Node services (the `part_001` SHA-1 encryptor and
the `part_000` SHA-1 decryptor): for every plaintext string, every envelope the
encryptor produces is decrypted back to `p` up to the final JSON normalization,
whenever both sides resolve the same key material, the imported RSA keys form a
matching OAEP pair, and the resolved AES key is 32 bytes.  (The pair of functions
cited by the spec — the SHA-1 encryptor and the SHA-256 `decryptionService.js`
decryptor — does NOT satisfy the law; see the counterexample.) -/
theorem C1_roundtrip_same_hash {J : Type} (O : OaepSpec) (B : BlockSpec)
    (importPub : Text → Option RsaPub) (importPriv : Text → Option RsaPriv)
    (jsonParse : Text → Option J)
    (p rawPublicKey rawPrivateKey rawAesKey : Text) (iv : Bytes)
    (dk pubT privT : Text) (pub : RsaPub) (sk : RsaPriv) (aesKey : Bytes)
    (e : Envelope)
    (ht : IsText p) (hiv : iv.length = 16) (hivB : IsBytes iv)
    (hak : resolveAesKeyGated rawAesKey = .ok dk)
    (hpub : resolvePubKeyGatedJs rawPublicKey = .ok pubT)
    (hpriv : resolvePrivKeyGatedJs rawPrivateKey = .ok privT)
    (hkey : importAesKeyJs dk = .ok aesKey)
    (hklen : aesKey.length = 32)
    (himp : importPub pubT = some pub)
    (himps : importPriv privT = some sk)
    (hmatch : O.Matching pub sk)
    (henc : hybridEncryptionJsSha1 O B importPub p rawPublicKey rawAesKey iv = .ok e) :
    hybridDecryptionJsSha1 O B importPriv jsonParse e rawPrivateKey rawAesKey =
      .ok (jsonNormalize jsonParse p) := by
  unfold hybridEncryptionJsSha1 at henc
  rw [hak] at henc
  simp only [exceptBind_ok] at henc
  rw [hpub] at henc
  simp only [exceptBind_ok] at henc
  rw [hkey] at henc
  simp only [exceptBind_ok] at henc
  rw [himp] at henc
  dsimp only at henc
  simp only [pure_bind] at henc
  unfold encryptUsingAesKeyModel at henc
  rw [if_neg (by simp [hklen, hiv])] at henc
  simp only [exceptBind_ok] at henc
  injection henc with he
  subst he
  unfold hybridDecryptionJsSha1
  rw [hak]
  simp only [exceptBind_ok]
  rw [hpriv]
  simp only [exceptBind_ok]
  rw [hkey]
  simp only [exceptBind_ok]
  rw [himps]
  dsimp only
  simp only [pure_bind]
  rw [oaep_iv_roundtrip O .sha1 pub sk iv hivB hmatch]
  simp only [exceptBind_ok]
  rw [aes_roundtrip B aesKey iv _ hklen hiv hivB
    (utf8Bytes_isBytes _ (uriEncode_isText p ht))]
  simp only [exceptBind_ok]
  rw [utf8_roundtrip _ (uriEncode_isText p ht)]
  dsimp only
  rw [uriDecode_uriEncode p ht]
  rfl

theorem C1_witness :
    hybridDecryptionJsSha1 toyOaep toyBlock (fun _ => some ⟨15, 3, 3, 5⟩)
        (fun _ => (none : Option Text))
        ⟨[81, 81, 56, 80, 68, 119, 56, 80, 68, 119, 56, 80, 68, 119, 56, 80, 68, 119, 56, 80, 68, 119, 61, 61],
         [65, 81, 65, 65, 65, 65, 65, 65, 65, 65, 65, 65, 65, 65, 65, 65, 65, 65, 65, 65, 65, 65, 65, 61]⟩
        pemPrivBegin (List.replicate 32 65) =
      .ok (jsonNormalize (fun _ => (none : Option Text)) [65]) :=
  C1_roundtrip_same_hash toyOaep toyBlock (fun _ => some ⟨15, 3⟩)
    (fun _ => some ⟨15, 3, 3, 5⟩) (fun _ => (none : Option Text)) [65] pemPubBegin
    pemPrivBegin (List.replicate 32 65) (List.replicate 16 0) (List.replicate 32 65)
    pemPubBegin pemPrivBegin ⟨15, 3⟩ ⟨15, 3, 3, 5⟩ (List.replicate 32 65)
    ⟨[81, 81, 56, 80, 68, 119, 56, 80, 68, 119, 56, 80, 68, 119, 56, 80, 68, 119, 56, 80, 68, 119, 61, 61],
     [65, 81, 65, 65, 65, 65, 65, 65, 65, 65, 65, 65, 65, 65, 65, 65, 65, 65, 65, 65, 65, 65, 65, 61]⟩
    (by unfold IsText; decide) (by decide) (by unfold IsBytes; decide) (by decide)
    (by decide) (by decide) (by decide) (by decide) rfl rfl True.intro (by decide)

/-- C1, the pair of functions the spec's round-trip law actually cites: the
`part_001` encryptor pins OAEP to SHA-1 while the `decryptionService.js`
decryptor pins it to SHA-256, so an envelope the encryptor produces under a
matching key pair and identical key material is rejected at the OAEP step —
`open(seal(p, pub, sym), priv, sym)` is an error, not `p`. -/
theorem C1_counterexample :
    hybridEncryptionJsSha1 toyOaep toyBlock (fun _ => some ⟨15, 3⟩) [65]
        pemPubBegin (List.replicate 32 65) (List.replicate 16 0) =
      .ok ⟨[81, 81, 56, 80, 68, 119, 56, 80, 68, 119, 56, 80, 68, 119, 56, 80, 68, 119, 56, 80, 68, 119, 61, 61],
           [65, 81, 65, 65, 65, 65, 65, 65, 65, 65, 65, 65, 65, 65, 65, 65, 65, 65, 65, 65, 65, 65, 65, 61]⟩ ∧
    hybridDecryptionJs256 toyOaep toyBlock (fun _ => some ⟨15, 3, 3, 5⟩)
        (fun _ => (none : Option Text))
        ⟨[81, 81, 56, 80, 68, 119, 56, 80, 68, 119, 56, 80, 68, 119, 56, 80, 68, 119, 56, 80, 68, 119, 61, 61],
         [65, 81, 65, 65, 65, 65, 65, 65, 65, 65, 65, 65, 65, 65, 65, 65, 65, 65, 65, 65, 65, 65, 65, 61]⟩
        [81, 85, 70, 66] (List.replicate 32 65) =
      .error .oaepError := by
  constructor
  · decide
  · decide

end AesRepo
